import Mathlib

/-
Verification of the QPanda noisy state-vector simulation engine specification
and of the QSpringRank application helpers.

The engine itself (class NoisyCPUImplQPU) is declared in
src/include/Core/VirtualQuantumProcessor/NoiseQPU/NoiseCPUImplQPU.h; the
repository snapshot contains only the header declarations, so every engine
definition below is modelled from the specification text (each such
definition says so in its doc comment).  The QSpringRank helpers
(src/Applications/QSpringRank/QSpringRank.cpp) are translated directly from
the source.  Machine floating-point numbers are modelled by exact ordered
fields (rationals or reals); complex amplitudes are pairs of field elements.
-/

namespace QPandaModel

/-- Complex numbers over a commutative ring, as re/im pairs.  This models the
C++ qcomplex_t values carried by QStat amplitude buffers. -/
structure Cx (R : Type) where
  re : R
  im : R
deriving DecidableEq

namespace Cx

variable {R : Type}

/-- Componentwise addition, as for std::complex. -/
def add [Add R] (x y : Cx R) : Cx R := ⟨x.re + y.re, x.im + y.im⟩

instance [Add R] : Add (Cx R) := ⟨add⟩

/-- Complex multiplication, as for std::complex. -/
def mul [Add R] [Sub R] [Mul R] (x y : Cx R) : Cx R :=
  ⟨x.re * y.re - x.im * y.im, x.re * y.im + x.im * y.re⟩

instance [Add R] [Sub R] [Mul R] : Mul (Cx R) := ⟨mul⟩

instance [Zero R] : Zero (Cx R) := ⟨⟨0, 0⟩⟩

instance [Zero R] [One R] : One (Cx R) := ⟨⟨1, 0⟩⟩

instance [Zero R] : Inhabited (Cx R) := ⟨0⟩

/-- Complex conjugate. -/
def conj [Neg R] (x : Cx R) : Cx R := ⟨x.re, -x.im⟩

/-- Squared magnitude of a complex amplitude. -/
def normSq [Add R] [Mul R] (x : Cx R) : R := x.re * x.re + x.im * x.im

/-- Division of a complex amplitude by a real scalar (used for
renormalization by a square root of a probability). -/
def divR [Div R] (x : Cx R) (r : R) : Cx R := ⟨x.re / r, x.im / r⟩

theorem add_def [Add R] (x y : Cx R) :
    x + y = ⟨x.re + y.re, x.im + y.im⟩ := rfl

theorem mul_def [Add R] [Sub R] [Mul R] (x y : Cx R) :
    x * y = ⟨x.re * y.re - x.im * y.im, x.re * y.im + x.im * y.re⟩ := rfl

theorem zero_def [Zero R] : (0 : Cx R) = ⟨0, 0⟩ := rfl

theorem one_def [Zero R] [One R] : (1 : Cx R) = ⟨1, 0⟩ := rfl

theorem normSq_zero [CommRing R] : normSq (0 : Cx R) = 0 := by
  simp [normSq, zero_def]

theorem normSq_mul [CommRing R] (x y : Cx R) :
    normSq (x * y) = normSq x * normSq y := by
  simp only [normSq, mul_def]
  ring

theorem normSq_divR [Field R] (x : Cx R) (r : R) :
    normSq (divR x r) = normSq x / (r * r) := by
  simp only [normSq, divR]
  rw [div_mul_div_comm, div_mul_div_comm, div_add_div_same]

end Cx

/-- Dense 2-by-2 complex matrix, row major: entries a b / c d.  This models
the QStat payload of a single-qubit gate or Kraus operator. -/
structure Mat2 (R : Type) where
  a : Cx R
  b : Cx R
  c : Cx R
  d : Cx R
deriving DecidableEq

namespace Mat2

variable {R : Type}

/-- Zero matrix. -/
def zeroM [Zero R] : Mat2 R := ⟨0, 0, 0, 0⟩

instance [Zero R] : Inhabited (Mat2 R) := ⟨zeroM⟩

/-- Identity matrix. -/
def idM [Zero R] [One R] : Mat2 R := ⟨1, 0, 0, 1⟩

/-- Conjugate transpose. -/
def adjoint [Neg R] (m : Mat2 R) : Mat2 R :=
  ⟨Cx.conj m.a, Cx.conj m.c, Cx.conj m.b, Cx.conj m.d⟩

/-- Matrix product. -/
def mulM [Add R] [Sub R] [Mul R] (m n : Mat2 R) : Mat2 R :=
  ⟨m.a * n.a + m.b * n.c, m.a * n.b + m.b * n.d,
   m.c * n.a + m.d * n.c, m.c * n.b + m.d * n.d⟩

/-- Matrix sum. -/
def addM [Add R] (m n : Mat2 R) : Mat2 R :=
  ⟨m.a + n.a, m.b + n.b, m.c + n.c, m.d + n.d⟩

/-- Sum of a list of matrices. -/
def sumM [Add R] [Zero R] (l : List (Mat2 R)) : Mat2 R :=
  l.foldr addM zeroM

/-- Unitarity: the conjugate transpose is a left inverse.  This is the
validity condition for a single-qubit gate matrix. -/
def unitary [Add R] [Sub R] [Mul R] [Neg R] [Zero R] [One R] (m : Mat2 R) : Prop :=
  mulM (adjoint m) m = idM

/-- Completeness of a Kraus-operator list: the operators sum, via adjoint
times operator, to the identity (trace preservation of the channel). -/
def complete [Add R] [Sub R] [Mul R] [Neg R] [Zero R] [One R]
    (ops : List (Mat2 R)) : Prop :=
  sumM (ops.map fun K => mulM (adjoint K) K) = idM

end Mat2

section ListSumHelpers

variable {R : Type} [Field R]

/-- Bridge between list sums over an index range and Finset sums. -/
theorem listSum_range_eq (n : ℕ) (f : ℕ → R) :
    ((List.range n).map f).sum = ∑ i ∈ Finset.range n, f i := by
  induction n with
  | zero => simp
  | succ m ih => rw [List.range_succ, Finset.sum_range_succ, List.map_append,
      List.sum_append, ih]; simp

theorem listSum_map_add (l : List ℕ) (f g : ℕ → R) :
    (l.map fun i => f i + g i).sum = (l.map f).sum + (l.map g).sum := by
  induction l with
  | nil => simp
  | cons a t ih => simp [ih]; ring

theorem listSum_map_div (l : List R) (c : R) :
    (l.map fun x => x / c).sum = l.sum / c := by
  induction l with
  | nil => simp
  | cons a t ih => simp [ih, add_div]

theorem listSum_map_sub (l : List ℕ) (f g : ℕ → R) :
    (l.map fun i => f i - g i).sum = (l.map f).sum - (l.map g).sum := by
  induction l with
  | nil => simp
  | cons a t ih => simp [ih]; ring

end ListSumHelpers

theorem getD_range_map {β : Type} (n : ℕ) (f : ℕ → β) (i : ℕ) (hi : i < n)
    (d : β) : ((List.range n).map f).getD i d = f i := by
  rw [List.getD_eq_getElem?_getD, List.getElem?_map, List.getElem?_range hi]
  rfl

theorem getD_map_lt {β γ : Type} (f : β → γ) (l : List β) (i : ℕ)
    (hi : i < l.length) (d : γ) (d2 : β) :
    (l.map f).getD i d = f (l.getD i d2) := by
  rw [List.getD_eq_getElem?_getD, List.getElem?_map,
    List.getElem?_eq_getElem hi]
  simp [List.getD_eq_getElem?_getD, List.getElem?_eq_getElem hi]

theorem sum_range_getD_map {β R : Type} [Field R] (l : List β) (d : β)
    (g : β → R) :
    ((List.range l.length).map fun j => g (l.getD j d)).sum = (l.map g).sum := by
  induction l with
  | nil => simp
  | cons a t ih =>
    rw [List.length_cons, List.range_succ_eq_map]
    simp only [List.map_cons, List.map_map, List.sum_cons, Function.comp_def,
      List.getD_cons_zero, List.getD_cons_succ]
    rw [ih]

theorem sum_range_getD {R : Type} [Field R] (l : List R) (d : R) :
    ((List.range l.length).map fun j => l.getD j d).sum = l.sum := by
  have := sum_range_getD_map l d (fun x : R => x)
  simpa using this

section Engine

variable {R : Type} [LinearOrderedField R]

/-- Modelled from the spec: the amplitude store of NoisyCPUImplQPU (the
QGateParam entries of qubit2stat; implementation not under src/).  An ordered
sequence of the owned qubit identifiers (identifier at position i occupies
bit i of the linear index) together with the 2^k complex amplitudes. -/
structure Store (R : Type) where
  qubits : List ℕ
  amps : List (Cx R)
deriving DecidableEq

/-- Modelled from the spec: the Partition Registry (the vQParam qubit2stat
container; implementation not under src/), a collection of disjoint
amplitude stores. -/
abbrev Reg (R : Type) := List (Store R)

/-- Modelled from the spec: whether a store currently owns a qubit
identifier. -/
def Store.owns (s : Store R) (q : ℕ) : Bool := s.qubits.contains q

/-- Sum of squared magnitudes of a store amplitude buffer. -/
def storeNormSum (amps : List (Cx R)) : R := (amps.map Cx.normSq).sum

/-- Number of occurrences of a qubit identifier across the whole registry;
the partition invariant demands exactly one occurrence per allocated
qubit. -/
def countQ (reg : Reg R) (q : ℕ) : ℕ := (reg.map fun s => s.qubits.count q).sum

/-- Modelled from the spec: the Partition Registry invariant.  Every
allocated qubit identifier belongs to exactly one store, and the stores
mention only allocated qubits (a strict partition of the allocated set). -/
def partInv (alloc : List ℕ) (reg : Reg R) : Prop :=
  (∀ q ∈ alloc, countQ reg q = 1) ∧ ∀ s ∈ reg, ∀ q ∈ s.qubits, q ∈ alloc

/-- Two qubits currently live in the same amplitude store. -/
def sameStore (reg : Reg R) (q1 q2 : ℕ) : Prop :=
  ∃ s ∈ reg, q1 ∈ s.qubits ∧ q2 ∈ s.qubits

instance (alloc : List ℕ) (reg : Reg R) : Decidable (partInv alloc reg) := by
  unfold partInv
  infer_instance

instance (reg : Reg R) (q1 q2 : ℕ) : Decidable (sameStore reg q1 q2) := by
  unfold sameStore
  infer_instance

/-- Modelled from the spec: the Kronecker (tensor) product of two amplitude
buffers, NoisyCPUImplQPU::TensorProduct (implementation not under src/).
The first factor keeps the low bits of the combined linear index, so entry
jB * a.length + jA of the result is a(jA) * b(jB). -/
def kronAmps (a b : List (Cx R)) : List (Cx R) :=
  b.flatMap fun y => a.map fun x => x * y

/-- Modelled from the spec: merging two stores concatenates their qubit
identifier sequences and tensors their amplitudes, preserving each store's
internal bit ordering. -/
def mergeTwo (s t : Store R) : Store R :=
  ⟨s.qubits ++ t.qubits, kronAmps s.amps t.amps⟩

/-- Modelled from the spec: the stores of the registry that own at least one
of the requested qubits. -/
def involved (reg : Reg R) (qs : List ℕ) : Reg R :=
  reg.filter fun s => qs.any fun q => s.owns q

/-- Modelled from the spec: the stores of the registry untouched by a merge
request. -/
def othersReg (reg : Reg R) (qs : List ℕ) : Reg R :=
  reg.filter fun s => !(qs.any fun q => s.owns q)

/-- Modelled from the spec: iterated merge of a list of stores, in registry
order.  The empty merge is the scalar store. -/
def mergeList : Reg R → Store R
  | [] => ⟨[], [1]⟩
  | s :: rest => rest.foldl mergeTwo s

/-- Modelled from the spec: Partition Registry resolve (the merge performed
by NoisyCPUImplQPU::TensorProduct and findgroup; implementation not under
src/).  If the requested qubits already live in at most one store the
registry is returned unchanged; otherwise the distinct stores involved are
replaced by their iterated Kronecker product, appended after the untouched
stores. -/
def resolveReg (qs : List ℕ) (reg : Reg R) : Reg R :=
  if (involved reg qs).length ≤ 1 then reg
  else othersReg reg qs ++ [mergeList (involved reg qs)]

/-- Position (bit index) of a qubit identifier inside its store. -/
def qposStore (s : Store R) (q : ℕ) : ℕ := s.qubits.findIdx fun x => x == q

/-- The store of the registry owning a given qubit (the first one, which is
unique under the partition invariant). -/
def ownerOf (reg : Reg R) (q : ℕ) : Store R :=
  (reg.find? fun s => s.owns q).getD ⟨[], []⟩

/-- Replacement of the amplitudes of the store owning a qubit; all qubit
identifier sequences are kept untouched. -/
def updateOwner (q : ℕ) (f : Store R → List (Cx R)) (reg : Reg R) : Reg R :=
  reg.map fun s => if s.owns q then ⟨s.qubits, f s⟩ else s

/-- All control bits of a basis-state index are set. -/
def ctrlOk (cs : List ℕ) (i : ℕ) : Bool := cs.all fun p => Nat.testBit i p

/-- Modelled from the spec: in-place single-qubit (optionally controlled)
unitary application, NoisyCPUImplQPU::unitarySingleQubitGate and
controlunitarySingleQubitGate (implementation not under src/).  Amplitudes
are processed in disjoint pairs differing only in the target bit t; each
pair is replaced by the 2-by-2 matrix-vector product, and only where all
control bits are 1. -/
def storeApplyC (t : ℕ) (cs : List ℕ) (m : Mat2 R) (amps : List (Cx R)) :
    List (Cx R) :=
  (List.range amps.length).map fun i =>
    if ctrlOk cs i then
      if Nat.testBit i t then m.c * amps.getD (i ^^^ 2 ^ t) 0 + m.d * amps.getD i 0
      else m.a * amps.getD i 0 + m.b * amps.getD (i ^^^ 2 ^ t) 0
    else amps.getD i 0

/-- Modelled from the spec: probability of reading 0 on the qubit at bit t,
the sum of squared magnitudes of all amplitudes whose bit t is 0 (part of
NoisyCPUImplQPU::qubitMeasure / measure_standard, not under src/). -/
def storeP0 (t : ℕ) (amps : List (Cx R)) : R :=
  ((List.range amps.length).map fun i =>
    if Nat.testBit i t then 0 else Cx.normSq (amps.getD i 0)).sum

/-- Modelled from the spec: sampled single-qubit collapse,
NoisyCPUImplQPU::qubitMeasure / measure_standard (implementation not under
src/).  Classical outcome is false (0) when the uniform sample u is below
p0, true (1) otherwise; amplitudes inconsistent with the outcome are zeroed
and the remaining ones divided by sq p0, respectively sq (1 - p0), where sq
is the square-root routine of the host (Real.sqrt in the claims). -/
def collapseStore (sq : R → R) (t : ℕ) (amps : List (Cx R)) (u : R) :
    Bool × List (Cx R) :=
  let p0 := storeP0 t amps
  let out : Bool := if u < p0 then false else true
  let dv := if u < p0 then sq p0 else sq (1 - p0)
  (out,
    (List.range amps.length).map fun i =>
      if Nat.testBit i t = out then Cx.divR (amps.getD i 0) dv else 0)

/-- Cumulative sum of the first n entries of a probability list. -/
def cumSum (l : List R) (n : ℕ) : R := (l.take n).sum

/-- Modelled from the spec: inverse-CDF selection of a Kraus branch inside
NoisyCPUImplQPU::unitary_noise_qubit_kraus (implementation not under src/).
Walk the cumulative sum of the branch probabilities and select the first
branch whose cumulative probability exceeds the sample; when rounding leaves
residual mass so that no cumulative sum exceeds the sample, the last branch
is selected as a fallback. -/
def selectKraus : List R → R → ℕ
  | [], _ => 0
  | [_], _ => 0
  | p :: q :: ps, u => if u < p then 0 else selectKraus (q :: ps) (u - p) + 1

/-- Modelled from the spec: squared norms of the candidate post-operator
states of a channel, NoisyCPUImplQPU::_get_probabilities (implementation not
under src/). -/
def branchProbs (t : ℕ) (ops : List (Mat2 R)) (amps : List (Cx R)) : List R :=
  ops.map fun K => storeNormSum (storeApplyC t [] K amps)

/-- Modelled from the spec: single-trajectory Kraus-channel application
(collapse part of NoisyCPUImplQPU::unitary_noise_qubit_kraus, not under
src/).  The selected operator is applied to the state and the result is
divided by sq of the branch probability. -/
def krausCollapse (sq : R → R) (t : ℕ) (ops : List (Mat2 R))
    (amps : List (Cx R)) (u : R) : List (Cx R) :=
  let ps := branchProbs t ops amps
  let j := selectKraus ps u
  (storeApplyC t [] (ops.getD j Mat2.zeroM) amps).map fun z =>
    Cx.divR z (sq (ps.getD j 0))

/-- Modelled from the spec: the error taxonomy entry for a Kraus channel
failing the completeness check. -/
inductive EngErr where
  | incompleteNoiseChannel
deriving DecidableEq

/-- Modelled from the spec: checked Kraus-channel application.  When the sum
of the branch probabilities is not within tol of 1 the channel is rejected
with an error and the amplitudes are returned unchanged (never silently
renormalized); otherwise the trajectory collapse runs. -/
def krausChecked (sq : R → R) (tol : R) (t : ℕ) (ops : List (Mat2 R))
    (amps : List (Cx R)) (u : R) : Option EngErr × List (Cx R) :=
  if |(branchProbs t ops amps).sum - 1| ≤ tol then
    (none, krausCollapse sq t ops amps u)
  else (some EngErr.incompleteNoiseChannel, amps)

/-- Pauli X matrix, used by Reset to flip a qubit collapsed to 1. -/
def xMat : Mat2 R := ⟨0, 1, 1, 0⟩

/-- Modelled from the spec: the operations of the engine query surface used
by the claims (gate, controlled gate, noisy channel, measure, reset). -/
inductive Op (R : Type) where
  | gate1 : ℕ → Mat2 R → Op R
  | cgate1 : ℕ → List ℕ → Mat2 R → Op R
  | noisy : ℕ → List (Mat2 R) → Op R
  | meas : ℕ → Op R
  | reset : ℕ → Op R

/-- Modelled from the spec: the full engine state: the Partition Registry
with its amplitude stores, the measurement outcomes reported so far, the
number of Random Source draws consumed, and the first surfaced error. -/
structure EngState (R : Type) where
  reg : Reg R
  outs : List Bool
  used : ℕ
  err : Option EngErr
deriving DecidableEq

/-- Modelled from the spec: one engine operation (NoisyCPUImplQPU gate,
noise, measure and reset entry points; implementations not under src/).
Gates resolve their qubits through the Partition Registry and update the
merged store in place; sampling operations (noisy, measure, reset) consume
exactly one draw of the Random Source stream, indexed by the number of draws
already used. -/
def stepOp (sq : R → R) (tol : R) (rng : ℕ → R) (st : EngState R) :
    Op R → EngState R
  | Op.gate1 q m =>
      let reg1 := resolveReg [q] st.reg
      { st with reg := updateOwner q (fun s => storeApplyC (qposStore s q) [] m s.amps) reg1 }
  | Op.cgate1 q cs m =>
      let reg1 := resolveReg (q :: cs) st.reg
      { st with reg := updateOwner q (fun s =>
          storeApplyC (qposStore s q) (cs.map (qposStore s)) m s.amps) reg1 }
  | Op.noisy q ops =>
      let u := rng st.used
      let s := ownerOf st.reg q
      let r := krausChecked sq tol (qposStore s q) ops s.amps u
      { reg := updateOwner q (fun s2 => (krausChecked sq tol (qposStore s2 q) ops s2.amps u).2) st.reg,
        outs := st.outs, used := st.used + 1, err := st.err.orElse fun _ => r.1 }
  | Op.meas q =>
      let u := rng st.used
      let s := ownerOf st.reg q
      let r := collapseStore sq (qposStore s q) s.amps u
      { reg := updateOwner q (fun s2 => (collapseStore sq (qposStore s2 q) s2.amps u).2) st.reg,
        outs := st.outs ++ [r.1], used := st.used + 1, err := st.err }
  | Op.reset q =>
      let u := rng st.used
      { reg := updateOwner q (fun s2 =>
          let r := collapseStore sq (qposStore s2 q) s2.amps u
          if r.1 then storeApplyC (qposStore s2 q) [] xMat r.2 else r.2) st.reg,
        outs := st.outs, used := st.used + 1, err := st.err }

/-- Modelled from the spec: a whole operation sequence run by the engine. -/
def runEngine (sq : R → R) (tol : R) (rng : ℕ → R) (st : EngState R)
    (ops : List (Op R)) : EngState R :=
  ops.foldl (stepOp sq tol rng) st

/-- Number of Random Source draws an operation sequence consumes: exactly
one per sampling operation (noisy, measure, reset), none per unitary
gate. -/
def sampleCount (ops : List (Op R)) : ℕ :=
  (ops.map fun op => match op with
    | Op.gate1 _ _ => 0
    | Op.cgate1 _ _ _ => 0
    | Op.noisy _ _ => 1
    | Op.meas _ => 1
    | Op.reset _ => 1).sum

/-- Modelled from the spec: the seedable reproducible Random Source
(RandomEngine19937, whose mt19937 implementation is not under src/), as a
deterministic stream of rationals in the unit interval derived from the
seed by a linear congruential recurrence. -/
def randStream (seed : ℕ) (i : ℕ) : ℚ :=
  ((fun x => (1103515245 * x + 12345) % 2147483648)^[i + 1] seed % 2147483648 : ℕ) / 2147483648

/-- Marginalized sub-index of a basis state: bit j of the result is the bit
of i at the position of the j-th requested qubit. -/
def gatherBits (ts : List ℕ) (i : ℕ) : ℕ :=
  ((List.range ts.length).map fun j =>
    if Nat.testBit i (ts.getD j 0) then 2 ^ j else 0).sum

/-- Modelled from the spec: the marginal probability of one assignment of
the requested qubit subset, the sum of squared magnitudes of all amplitudes
consistent with that assignment (NoisyCPUImplQPU::pMeasure, implementation
not under src/). -/
def marginalP (ts : List ℕ) (amps : List (Cx R)) (a : ℕ) : R :=
  ((List.range amps.length).map fun i =>
    if gatherBits ts i = a then Cx.normSq (amps.getD i 0) else 0).sum

/-- Modelled from the spec: exhaustive enumeration of all assignments of the
qubit subset, paired with their marginal probabilities, in ascending
basis-index order. -/
def pMeasureAll (ts : List ℕ) (amps : List (Cx R)) : List (ℕ × R) :=
  (List.range (2 ^ ts.length)).map fun a => (a, marginalP ts amps a)

/-- Ordering of probability-table entries: probability descending, ties
broken by ascending basis-state index. -/
def probLe (x y : ℕ × R) : Bool :=
  decide (y.2 < x.2) || (decide (y.2 ≤ x.2) && decide (x.1 ≤ y.1))

/-- Modelled from the spec: the sorted probability table returned by the
probability query. -/
def pMeasureSorted (ts : List ℕ) (amps : List (Cx R)) : List (ℕ × R) :=
  (pMeasureAll ts amps).mergeSort probLe

/-- Modelled from the spec: NoisyCPUImplQPU::pMeasure with optional top-k
truncation (select_max; implementation not under src/). -/
def pMeasure (ts : List ℕ) (amps : List (Cx R)) (topk : Option ℕ) :
    List (ℕ × R) :=
  match topk with
  | none => pMeasureSorted ts amps
  | some k => (pMeasureSorted ts amps).take k

/-- Modelled from the spec: the operations acting on one amplitude store,
used to state the per-store norm invariant. -/
inductive StoreOp (R : Type) where
  | sgate : ℕ → List ℕ → Mat2 R → StoreOp R
  | scollapse : ℕ → R → StoreOp R
  | skraus : ℕ → List (Mat2 R) → R → StoreOp R

/-- Modelled from the spec: the amplitude transformation of one completed
store-level operation. -/
def applyStoreOp (sq : R → R) (amps : List (Cx R)) : StoreOp R → List (Cx R)
  | StoreOp.sgate t cs m => storeApplyC t cs m amps
  | StoreOp.scollapse t u => (collapseStore sq t amps u).2
  | StoreOp.skraus t ops u => krausCollapse sq t ops amps u

/-- Side conditions under which the spec promises norm preservation for one
store-level operation on a store of k qubits: gate matrices are unitary and
no control coincides with the target; samples are uniform draws in the unit
interval; Kraus channels are nonempty and complete. -/
def opOK (k : ℕ) : StoreOp R → Prop
  | StoreOp.sgate t cs m => t < k ∧ t ∉ cs ∧ m.unitary
  | StoreOp.scollapse t u => t < k ∧ 0 ≤ u ∧ u < 1
  | StoreOp.skraus t ops u => t < k ∧ 0 ≤ u ∧ u < 1 ∧ ops ≠ [] ∧ Mat2.complete ops

end Engine

section SpringRank

/-- Translation of get_rank (src/Applications/QSpringRank/QSpringRank.cpp,
lines 51-73).  The loop pushes entry index as (real part, index) and only
afterwards tests whether element_cnt equals the already-incremented index,
breaking then; so it collects the first element_cnt entries when
1 <= element_cnt, and every entry when element_cnt = 0, since 0 never equals
the post-incremented index.  The pairs are sorted by real part descending
(std::sort with comparator a.first greater than b.first; the model uses a
stable merge sort, one of the orders std::sort may produce) and the indices
are returned. -/
def get_rank (hhl_result : List (Cx ℚ)) (element_cnt : ℕ) : List ℕ :=
  let take_cnt := if element_cnt = 0 then hhl_result.length else element_cnt
  let sort_vec := ((hhl_result.map Cx.re).take take_cnt).enum.map
    fun p => (p.2, p.1)
  (sort_vec.mergeSort fun x y => decide (y.1 ≤ x.1)).map fun p => p.2

/-- Translation of the row-sum accumulator k_out of
adjacent_matrix_to_hermitian (QSpringRank.cpp, lines 82-92). -/
def k_out (m : List (List ℚ)) : List ℚ := m.map List.sum

/-- Translation of the column-sum accumulator k_in of
adjacent_matrix_to_hermitian (QSpringRank.cpp, lines 82-92), for a square
matrix. -/
def k_in (m : List (List ℚ)) : List ℚ :=
  (List.range m.length).map fun j => (m.map fun row => row.getD j 0).sum

/-- Translation of adjacent_matrix_to_hermitian (QSpringRank.cpp, lines
75-143).  The source stores A as complex amplitudes whose imaginary parts
stay 0; the model keeps the real values.  A is built by setting diagonal
entry i to k_out i + k_in i and then subtracting m i j + m j i from every
entry (i, j); each entry is written once, so the result is given entrywise.
The values appended to b are k_out i - k_in i. -/
def adjacent_matrix_to_hermitian (m : List (List ℚ)) : List ℚ × List ℚ :=
  ((List.range (m.length * m.length)).map fun idx =>
    (if idx / m.length = idx % m.length then
      (k_out m).getD (idx / m.length) 0 + (k_in m).getD (idx / m.length) 0
     else 0)
      - (m.getD (idx / m.length) []).getD (idx % m.length) 0
      - (m.getD (idx % m.length) []).getD (idx / m.length) 0,
   (List.range m.length).map fun i => (k_out m).getD i 0 - (k_in m).getD i 0)

end SpringRank

section SpringRankProofs

theorem mem_sortVec_assoc (hhl : List (Cx ℚ)) (cnt : ℕ) (h : cnt ≤ hhl.length)
    (p : ℚ × ℕ)
    (hp : p ∈ ((hhl.map Cx.re).take cnt).enum.map fun q => (q.2, q.1)) :
    p.1 = (hhl.getD p.2 0).re ∧ p.2 < cnt := by
  rcases List.mem_map.mp hp with ⟨q, hq, rfl⟩
  rw [List.mem_enum_iff_getElem?] at hq
  have hlt : q.1 < ((hhl.map Cx.re).take cnt).length := (List.getElem?_eq_some.mp hq).1
  have hlen : ((hhl.map Cx.re).take cnt).length = cnt := by
    simp [List.length_take]
    exact h
  have hq1 : q.1 < cnt := hlen ▸ hlt
  have hq1h : q.1 < hhl.length := lt_of_lt_of_le hq1 h
  constructor
  · have := List.getElem?_eq_getElem hlt
    rw [hq] at this
    have hval : q.2 = ((hhl.map Cx.re).take cnt)[q.1] := by
      exact Option.some_injective _ this
    rw [hval]
    simp [List.getElem_take, List.getElem_map, List.getElem?_eq_getElem hq1h]
  · exact hq1

theorem get_rank_take (hhl : List (Cx ℚ)) (cnt : ℕ) (h1 : 1 ≤ cnt) :
    get_rank hhl cnt =
    (((((hhl.map Cx.re).take cnt).enum.map fun q => (q.2, q.1)).mergeSort
      fun x y : ℚ × ℕ => decide (y.1 ≤ x.1)).map fun p => p.2) := by
  simp only [get_rank]
  rw [if_neg (by omega)]

theorem get_rank_perm (hhl : List (Cx ℚ)) (cnt : ℕ) (h1 : 1 ≤ cnt)
    (h : cnt ≤ hhl.length) :
    (get_rank hhl cnt).Perm (List.range cnt) := by
  rw [get_rank_take hhl cnt h1]
  have hperm := List.mergeSort_perm
    (((hhl.map Cx.re).take cnt).enum.map fun q => (q.2, q.1))
    fun x y : ℚ × ℕ => decide (y.1 ≤ x.1)
  have h2 := hperm.map fun p : ℚ × ℕ => p.2
  refine h2.trans ?_
  rw [List.map_map]
  have : (fun p : ℚ × ℕ => p.2) ∘ (fun q : ℕ × ℚ => (q.2, q.1)) =
      fun q : ℕ × ℚ => q.1 := rfl
  rw [this]
  have hfst := List.enum_map_fst ((hhl.map Cx.re).take cnt)
  have hlen : ((hhl.map Cx.re).take cnt).length = cnt := by
    simp [List.length_take]; exact h
  rw [show (fun q : ℕ × ℚ => q.1) = (Prod.fst : ℕ × ℚ → ℕ) from rfl, hfst, hlen]

/-- Claim C9 as amended: for every hhl_result vector with at least
element_cnt entries and element_cnt at least 1, get_rank returns exactly
element_cnt indices forming a permutation of 0..element_cnt-1, ordered so
that the real parts of the corresponding entries are non-increasing along
the returned list.  The restriction to element_cnt at least 1 is forced by
the source: at element_cnt = 0 the break test never fires and every entry
is collected (see get_rank_counterexample). -/
theorem get_rank_spec (hhl : List (Cx ℚ)) (cnt : ℕ) (h1 : 1 ≤ cnt)
    (h : cnt ≤ hhl.length) :
    (get_rank hhl cnt).length = cnt ∧
    (get_rank hhl cnt).Perm (List.range cnt) ∧
    ((get_rank hhl cnt).map fun i => (hhl.getD i 0).re).Pairwise
      fun x y => y ≤ x := by
  have hperm := get_rank_perm hhl cnt h1 h
  refine ⟨by rw [hperm.length_eq, List.length_range], hperm, ?_⟩
  have hsorted := @List.sorted_mergeSort (ℚ × ℕ)
    (fun x y : ℚ × ℕ => decide (y.1 ≤ x.1))
    (fun a b c h1 h2 => by
      simp only [decide_eq_true_eq] at h1 h2 ⊢
      exact le_trans h2 h1)
    (fun a b => by
      simp only [Bool.or_eq_true, decide_eq_true_eq]
      exact le_total b.1 a.1)
    (((hhl.map Cx.re).take cnt).enum.map fun q => (q.2, q.1))
  have hprop : (((((hhl.map Cx.re).take cnt).enum.map fun q => (q.2, q.1)).mergeSort
      fun x y : ℚ × ℕ => decide (y.1 ≤ x.1)).Pairwise
      fun x y : ℚ × ℕ => (hhl.getD y.2 0).re ≤ (hhl.getD x.2 0).re) := by
    have hmemperm := List.mergeSort_perm
      (((hhl.map Cx.re).take cnt).enum.map fun q => (q.2, q.1))
      fun x y : ℚ × ℕ => decide (y.1 ≤ x.1)
    refine hsorted.imp_of_mem ?_
    intro a b ha hb hab
    simp only [decide_eq_true_eq] at hab
    have ha2 := (mem_sortVec_assoc hhl cnt h a (hmemperm.subset ha)).1
    have hb2 := (mem_sortVec_assoc hhl cnt h b (hmemperm.subset hb)).1
    rw [← ha2, ← hb2]
    exact hab
  rw [get_rank_take hhl cnt h1, List.map_map]
  exact List.pairwise_map.mpr hprop

/-- Counterexample refuting claim C9 as stated: the claim quantifies over
every element_cnt, but at element_cnt = 0 the source loop pushes an entry
before testing the break condition against the post-incremented index, so 0
never matches and every entry is collected; on a one-entry vector the code
returns one index where the claim demands zero. -/
theorem get_rank_counterexample :
    (0 ≤ ([⟨1,0⟩] : List (Cx ℚ)).length) ∧
    ¬ (get_rank [⟨1,0⟩] 0).length = 0 := by
  refine ⟨Nat.zero_le _, ?_⟩
  have hlen : (get_rank [⟨1,0⟩] 0).length = 1 := by
    simp only [get_rank, if_pos]
    rw [List.length_map, (List.mergeSort_perm _ _).length_eq]
    simp
  omega

/-- Witness for claim C9 at a concrete input. -/
theorem get_rank_spec_witness :
    ((1 ≤ 2) ∧ 2 ≤ ([⟨1,0⟩, ⟨3,0⟩, ⟨2,0⟩] : List (Cx ℚ)).length) ∧
    ((get_rank [⟨1,0⟩, ⟨3,0⟩, ⟨2,0⟩] 2).length = 2 ∧
    (get_rank [⟨1,0⟩, ⟨3,0⟩, ⟨2,0⟩] 2).Perm (List.range 2) ∧
    ((get_rank [⟨1,0⟩, ⟨3,0⟩, ⟨2,0⟩] 2).map
      fun i => (([⟨1,0⟩, ⟨3,0⟩, ⟨2,0⟩] : List (Cx ℚ)).getD i 0).re).Pairwise
      fun x y => y ≤ x) :=
  ⟨⟨by decide, by decide⟩,
   get_rank_spec [⟨1,0⟩, ⟨3,0⟩, ⟨2,0⟩] 2 (by decide) (by decide)⟩

theorem herm_entry (m : List (List ℚ)) (i j : ℕ) (hi : i < m.length)
    (hj : j < m.length) :
    (adjacent_matrix_to_hermitian m).1.getD (i * m.length + j) 0 =
    (if i = j then (k_out m).getD i 0 + (k_in m).getD i 0 else 0)
      - (m.getD i []).getD j 0 - (m.getD j []).getD i 0 := by
  have hn : 0 < m.length := lt_of_le_of_lt (Nat.zero_le i) hi
  have hidx : i * m.length + j < m.length * m.length := by
    have h1 : i * m.length + j < (i + 1) * m.length := by
      have : (i + 1) * m.length = i * m.length + m.length := by ring
      omega
    have h2 : (i + 1) * m.length ≤ m.length * m.length :=
      Nat.mul_le_mul_right _ hi
    omega
  have hdiv : (i * m.length + j) / m.length = i := by
    rw [mul_comm, Nat.mul_add_div hn, Nat.div_eq_of_lt hj, Nat.add_zero]
  have hmod : (i * m.length + j) % m.length = j := by
    rw [mul_comm, Nat.mul_add_mod, Nat.mod_eq_of_lt hj]
  show ((List.range (m.length * m.length)).map _).getD _ 0 = _
  rw [getD_range_map _ _ _ hidx, hdiv, hmod]

/-- Claim C10: for a square input matrix, adjacent_matrix_to_hermitian
produces a symmetric matrix whose diagonal entries are
k_out i + k_in i - 2 m i i, whose off-diagonal entries are
-(m i j + m j i), whose rows sum to zero, and appends to b the values
k_out i - k_in i, where k_out i is the sum of row i and k_in i the sum of
column i of the input. -/
theorem adjacent_matrix_to_hermitian_spec (m : List (List ℚ))
    (hsq : ∀ row ∈ m, row.length = m.length) (hn : 0 < m.length) :
    ((adjacent_matrix_to_hermitian m).1.length = m.length * m.length ∧
      (adjacent_matrix_to_hermitian m).2.length = m.length) ∧
    (∀ i < m.length, ∀ j < m.length,
      (adjacent_matrix_to_hermitian m).1.getD (i * m.length + j) 0 =
      (adjacent_matrix_to_hermitian m).1.getD (j * m.length + i) 0) ∧
    (∀ i < m.length,
      (adjacent_matrix_to_hermitian m).1.getD (i * m.length + i) 0 =
      (m.getD i []).sum + (m.map fun row => row.getD i 0).sum
        - 2 * (m.getD i []).getD i 0) ∧
    (∀ i < m.length, ∀ j < m.length, i ≠ j →
      (adjacent_matrix_to_hermitian m).1.getD (i * m.length + j) 0 =
      -((m.getD i []).getD j 0 + (m.getD j []).getD i 0)) ∧
    (∀ i < m.length,
      ((List.range m.length).map fun j =>
        (adjacent_matrix_to_hermitian m).1.getD (i * m.length + j) 0).sum = 0) ∧
    (∀ i < m.length,
      (adjacent_matrix_to_hermitian m).2.getD i 0 =
      (m.getD i []).sum - (m.map fun row => row.getD i 0).sum) := by
  have hkout : ∀ i, i < m.length → (k_out m).getD i 0 = (m.getD i []).sum := by
    intro i hi
    exact getD_map_lt List.sum m i hi 0 []
  have hkin : ∀ i, i < m.length →
      (k_in m).getD i 0 = (m.map fun row => row.getD i 0).sum := by
    intro i hi
    unfold k_in
    rw [getD_range_map _ _ _ hi]
  refine ⟨⟨by simp [adjacent_matrix_to_hermitian],
      by simp [adjacent_matrix_to_hermitian]⟩, ?_, ?_, ?_, ?_, ?_⟩
  · intro i hi j hj
    rw [herm_entry m i j hi hj, herm_entry m j i hj hi]
    by_cases hij : i = j
    · subst hij; simp
    · rw [if_neg hij, if_neg (Ne.symm hij)]; ring
  · intro i hi
    rw [herm_entry m i i hi hi, if_pos rfl, hkout i hi, hkin i hi]
    ring
  · intro i hi j hj hij
    rw [herm_entry m i j hi hj, if_neg hij]
    ring
  · intro i hi
    have hrw : ∀ j ∈ List.range m.length,
        (adjacent_matrix_to_hermitian m).1.getD (i * m.length + j) 0 =
        (if i = j then (k_out m).getD i 0 + (k_in m).getD i 0 else 0)
          - (m.getD i []).getD j 0 - (m.getD j []).getD i 0 := by
      intro j hj
      exact herm_entry m i j hi (List.mem_range.mp hj)
    rw [List.map_congr_left hrw]
    have hsplit : ((List.range m.length).map fun j =>
        (if i = j then (k_out m).getD i 0 + (k_in m).getD i 0 else 0)
          - (m.getD i []).getD j 0 - (m.getD j []).getD i 0).sum =
        ((List.range m.length).map fun j =>
          if i = j then (k_out m).getD i 0 + (k_in m).getD i 0 else 0).sum
        - ((List.range m.length).map fun j => (m.getD i []).getD j 0).sum
        - ((List.range m.length).map fun j => (m.getD j []).getD i 0).sum := by
      rw [show (fun j => (if i = j then (k_out m).getD i 0 + (k_in m).getD i 0
          else 0) - (m.getD i []).getD j 0 - (m.getD j []).getD i 0) =
        (fun j => ((if i = j then (k_out m).getD i 0 + (k_in m).getD i 0
          else 0) - (m.getD i []).getD j 0) - (m.getD j []).getD i 0)
        from rfl]
      rw [listSum_map_sub (List.range m.length)
        (fun j => (if i = j then (k_out m).getD i 0 + (k_in m).getD i 0
          else 0) - (m.getD i []).getD j 0)
        (fun j => (m.getD j []).getD i 0)]
      rw [listSum_map_sub (List.range m.length)
        (fun j => if i = j then (k_out m).getD i 0 + (k_in m).getD i 0 else 0)
        (fun j => (m.getD i []).getD j 0)]
    rw [hsplit]
    have hif : ((List.range m.length).map fun j =>
        if i = j then (k_out m).getD i 0 + (k_in m).getD i 0 else 0).sum =
        (k_out m).getD i 0 + (k_in m).getD i 0 := by
      rw [listSum_range_eq]
      rw [Finset.sum_ite_eq (Finset.range m.length) i
        (fun _ => (k_out m).getD i 0 + (k_in m).getD i 0)]
      rw [if_pos (Finset.mem_range.mpr hi)]
    have hrowlen : (m.getD i []).length = m.length := by
      apply hsq
      rw [List.getD_eq_getElem m [] hi]
      exact List.getElem_mem hi
    have hrow : ((List.range m.length).map fun j =>
        (m.getD i []).getD j 0).sum = (m.getD i []).sum := by
      rw [← hrowlen]
      exact sum_range_getD (m.getD i []) 0
    have hcol : ((List.range m.length).map fun j =>
        (m.getD j []).getD i 0).sum = (m.map fun row => row.getD i 0).sum := by
      have := sum_range_getD_map m [] (fun row => row.getD i 0)
      exact this
    rw [hif, hrow, hcol, hkout i hi, hkin i hi]
    ring
  · intro i hi
    show ((List.range m.length).map _).getD i 0 = _
    rw [getD_range_map _ _ _ hi, hkout i hi, hkin i hi]

/-- Witness for claim C10 at a concrete square matrix. -/
theorem adjacent_matrix_to_hermitian_spec_witness :
    (∀ row ∈ [[0,1],[1,0]], row.length = ([[0,1],[1,0]] : List (List ℚ)).length) ∧
    (0 < ([[0,1],[1,0]] : List (List ℚ)).length) ∧
    (∀ i < ([[0,1],[1,0]] : List (List ℚ)).length,
      ((List.range ([[0,1],[1,0]] : List (List ℚ)).length).map fun j =>
        (adjacent_matrix_to_hermitian [[0,1],[1,0]]).1.getD
          (i * ([[0,1],[1,0]] : List (List ℚ)).length + j) 0).sum = 0) :=
  ⟨by decide, by decide,
    (adjacent_matrix_to_hermitian_spec [[0,1],[1,0]] (by decide)
      (by decide)).2.2.2.2.1⟩

end SpringRankProofs

section PMeasureProofs

variable {R : Type} [LinearOrderedField R]

theorem probLe_trans (a b c : ℕ × R) (h1 : probLe a b = true)
    (h2 : probLe b c = true) : probLe a c = true := by
  simp only [probLe, Bool.or_eq_true, Bool.and_eq_true, decide_eq_true_eq]
    at h1 h2 ⊢
  rcases h1 with h1 | ⟨h1, h1i⟩
  · rcases h2 with h2 | ⟨h2, h2i⟩
    · exact Or.inl (lt_trans h2 h1)
    · exact Or.inl (lt_of_le_of_lt h2 h1)
  · rcases h2 with h2 | ⟨h2, h2i⟩
    · exact Or.inl (lt_of_lt_of_le h2 h1)
    · exact Or.inr ⟨le_trans h2 h1, le_trans h1i h2i⟩

theorem probLe_total (a b : ℕ × R) : (probLe a b || probLe b a) = true := by
  simp only [probLe, Bool.or_eq_true, Bool.and_eq_true, decide_eq_true_eq]
  rcases lt_trichotomy a.2 b.2 with h | h | h
  · exact Or.inr (Or.inl h)
  · rcases le_total a.1 b.1 with hi | hi
    · exact Or.inl (Or.inr ⟨le_of_eq h.symm, hi⟩)
    · exact Or.inr (Or.inr ⟨le_of_eq h, hi⟩)
  · exact Or.inl (Or.inl h)

/-- Claim C1: the probability query returns the marginal probabilities of
all assignments of the qubit subset, sorted by probability descending with
ties broken by ascending basis-state index, and the top-k form returns
exactly the first k entries of that sorted exhaustive enumeration. -/
theorem pMeasure_spec (ts : List ℕ) (amps : List (Cx R)) :
    (∀ k, pMeasure ts amps (some k) = (pMeasureSorted ts amps).take k) ∧
    pMeasure ts amps none = pMeasureSorted ts amps ∧
    (pMeasureSorted ts amps).Perm (pMeasureAll ts amps) ∧
    (∀ a, a < 2 ^ ts.length →
      (pMeasureAll ts amps).getD a (0, 0) = (a, marginalP ts amps a)) ∧
    (pMeasureSorted ts amps).Pairwise
      (fun x y => y.2 < x.2 ∨ (x.2 = y.2 ∧ x.1 ≤ y.1)) := by
  refine ⟨fun k => rfl, rfl, List.mergeSort_perm _ _, ?_, ?_⟩
  · intro a ha
    exact getD_range_map _ _ _ ha _
  · have hsorted := @List.sorted_mergeSort (ℕ × R) probLe
      (fun a b c => probLe_trans a b c) (fun a b => probLe_total a b)
      (pMeasureAll ts amps)
    refine hsorted.imp ?_
    intro x y hxy
    simp only [probLe, Bool.or_eq_true, Bool.and_eq_true, decide_eq_true_eq]
      at hxy
    rcases hxy with h | ⟨h, hi⟩
    · exact Or.inl h
    · rcases lt_or_eq_of_le h with h2 | h2
      · exact Or.inl h2
      · exact Or.inr ⟨h2.symm, hi⟩

/-- Witness for claim C1 at a concrete store (an unnormalized Bell pair). -/
theorem pMeasure_spec_witness :
    (pMeasure [0, 1] ([⟨1,0⟩, 0, 0, ⟨1,0⟩] : List (Cx ℚ)) (some 2) =
      (pMeasureSorted [0, 1] ([⟨1,0⟩, 0, 0, ⟨1,0⟩] : List (Cx ℚ))).take 2) ∧
    (pMeasureSorted [0, 1] ([⟨1,0⟩, 0, 0, ⟨1,0⟩] : List (Cx ℚ))).Pairwise
      (fun x y => y.2 < x.2 ∨ (x.2 = y.2 ∧ x.1 ≤ y.1)) :=
  ⟨(pMeasure_spec [0, 1] [⟨1,0⟩, 0, 0, ⟨1,0⟩]).1 2,
   (pMeasure_spec [0, 1] [⟨1,0⟩, 0, 0, ⟨1,0⟩]).2.2.2.2⟩

end PMeasureProofs

section MeasureProofs

/-- Claim C2: measuring a qubit computes p0 as the sum of squared magnitudes
of the amplitudes whose bit for that qubit is 0, reports outcome 0 exactly
when the uniform sample is below p0, zeroes every amplitude inconsistent
with the outcome and divides the remaining ones by sqrt p0, respectively
sqrt (1 - p0); at the engine level the measurement consumes exactly one
Random Source draw and appends the outcome to the outputs. -/
theorem measure_spec (t : ℕ) (amps : List (Cx ℝ)) (u : ℝ) :
    (storeP0 t amps =
      ∑ i ∈ (Finset.range amps.length).filter
        (fun i => Nat.testBit i t = false), Cx.normSq (amps.getD i 0)) ∧
    ((collapseStore Real.sqrt t amps u).1 =
      if u < storeP0 t amps then false else true) ∧
    (∀ i, i < amps.length →
      ((collapseStore Real.sqrt t amps u).2).getD i 0 =
      if Nat.testBit i t = (if u < storeP0 t amps then false else true) then
        Cx.divR (amps.getD i 0)
          (if u < storeP0 t amps then Real.sqrt (storeP0 t amps)
           else Real.sqrt (1 - storeP0 t amps))
      else 0) ∧
    (∀ (tol : ℝ) (rng : ℕ → ℝ) (st : EngState ℝ) (q : ℕ), st.err = none →
      stepOp Real.sqrt tol rng st (Op.meas q) =
      ⟨updateOwner q
          (fun s2 => (collapseStore Real.sqrt (qposStore s2 q) s2.amps
            (rng st.used)).2) st.reg,
        st.outs ++ [(collapseStore Real.sqrt (qposStore (ownerOf st.reg q) q)
          (ownerOf st.reg q).amps (rng st.used)).1],
        st.used + 1, none⟩) := by
  refine ⟨?_, rfl, ?_, ?_⟩
  · unfold storeP0
    rw [listSum_range_eq, Finset.sum_filter]
    apply Finset.sum_congr rfl
    intro i _
    cases h : Nat.testBit i t <;> simp [h]
  · intro i hi
    show ((List.range amps.length).map _).getD i 0 = _
    rw [getD_range_map _ _ _ hi]
  · intro tol rng st q herr
    cases st with
    | mk reg outs used err =>
      cases herr
      rfl

/-- Witness for claim C2 at a concrete one-qubit store. -/
theorem measure_spec_witness :
    ((collapseStore Real.sqrt 0 ([⟨1,0⟩, 0] : List (Cx ℝ)) 0).1 =
      if (0 : ℝ) < storeP0 0 ([⟨1,0⟩, 0] : List (Cx ℝ)) then false else true) :=
  (measure_spec 0 [⟨1,0⟩, 0] 0).2.1

end MeasureProofs

section NoiseProofs

variable {R : Type} [LinearOrderedField R]

theorem selectKraus_lt : ∀ (ps : List R) (u : R), ps ≠ [] →
    selectKraus ps u < ps.length
  | [], _, h => absurd rfl h
  | [_], _, _ => by simp [selectKraus]
  | p :: q :: ps, u, _ => by
    by_cases hu : u < p
    · simp [selectKraus, hu]
    · have ih := selectKraus_lt (q :: ps) (u - p) (by simp)
      simp only [selectKraus, if_neg hu, List.length_cons]
      simp only [List.length_cons] at ih
      omega

theorem selectKraus_cum_le : ∀ (ps : List R) (u : R) (j : ℕ),
    j < selectKraus ps u → cumSum ps (j + 1) ≤ u
  | [], u, j => by simp [selectKraus]
  | [_], u, j => by simp [selectKraus]
  | p :: q :: ps, u, j => by
    intro hj
    by_cases hu : u < p
    · simp [selectKraus, hu] at hj
    · simp only [selectKraus, if_neg hu] at hj
      match j with
      | 0 =>
        simp only [cumSum, List.take_succ_cons, List.take_zero, List.sum_cons,
          List.sum_nil, add_zero]
        exact le_of_not_lt hu
      | j' + 1 =>
        have ih := selectKraus_cum_le (q :: ps) (u - p) j' (by omega)
        simp only [cumSum, List.take_succ_cons, List.sum_cons] at ih ⊢
        linarith

theorem selectKraus_cum_gt : ∀ (ps : List R) (u : R), u < ps.sum →
    u < cumSum ps (selectKraus ps u + 1)
  | [], u, h => by simp at h; simpa [selectKraus, cumSum] using h
  | [p], u, h => by
    simp only [List.sum_cons, List.sum_nil, add_zero] at h
    simpa [selectKraus, cumSum] using h
  | p :: q :: ps, u, h => by
    by_cases hu : u < p
    · simpa [selectKraus, hu, cumSum] using hu
    · have hrest : u - p < (q :: ps).sum := by
        simp only [List.sum_cons] at h ⊢
        linarith
      have ih := selectKraus_cum_gt (q :: ps) (u - p) hrest
      simp only [selectKraus, if_neg hu, cumSum, List.take_succ_cons,
        List.sum_cons] at ih ⊢
      linarith

theorem selectKraus_fallback : ∀ (ps : List R) (u : R), ps ≠ [] →
    (∀ j, j < ps.length → cumSum ps (j + 1) ≤ u) →
    selectKraus ps u = ps.length - 1
  | [], _, h, _ => absurd rfl h
  | [_], _, _, _ => by simp [selectKraus]
  | p :: q :: ps, u, _, hall => by
    have h0 : p ≤ u := by
      have := hall 0 (by simp)
      simpa [cumSum] using this
    have hrest : ∀ j, j < (q :: ps).length → cumSum (q :: ps) (j + 1) ≤ u - p := by
      intro j hj
      have := hall (j + 1) (by simp only [List.length_cons] at hj ⊢; omega)
      simp only [cumSum, List.take_succ_cons, List.sum_cons] at this ⊢
      linarith
    have ih := selectKraus_fallback (q :: ps) (u - p) (by simp) hrest
    simp only [selectKraus, if_neg (not_lt.mpr h0), ih, List.length_cons]
    simp

/-- Claim C3: the noise engine selects the Kraus branch by walking the
cumulative sum of the branch probabilities, taking the first branch whose
cumulative probability exceeds the sample; when no cumulative sum exceeds
the sample the last branch is selected rather than failing; and the store
amplitudes are replaced by the selected operator applied to the state,
divided by sqrt of the branch probability. -/
theorem apply_noisy_spec (t : ℕ) (ops : List (Mat2 ℝ)) (amps : List (Cx ℝ))
    (u : ℝ) (h : ops ≠ []) :
    (branchProbs t ops amps =
      ops.map fun K => storeNormSum (storeApplyC t [] K amps)) ∧
    (krausCollapse Real.sqrt t ops amps u =
      (storeApplyC t []
        (ops.getD (selectKraus (branchProbs t ops amps) u) Mat2.zeroM)
        amps).map fun z => Cx.divR z
          (Real.sqrt ((branchProbs t ops amps).getD
            (selectKraus (branchProbs t ops amps) u) 0))) ∧
    (selectKraus (branchProbs t ops amps) u < ops.length) ∧
    (∀ j, j < selectKraus (branchProbs t ops amps) u →
      cumSum (branchProbs t ops amps) (j + 1) ≤ u) ∧
    (u < (branchProbs t ops amps).sum →
      u < cumSum (branchProbs t ops amps)
        (selectKraus (branchProbs t ops amps) u + 1)) ∧
    ((∀ j, j < ops.length → cumSum (branchProbs t ops amps) (j + 1) ≤ u) →
      selectKraus (branchProbs t ops amps) u = ops.length - 1) := by
  have hlen : (branchProbs t ops amps).length = ops.length := by
    simp [branchProbs]
  have hne : branchProbs t ops amps ≠ [] := by
    simp [branchProbs]
    exact h
  refine ⟨rfl, rfl, ?_, ?_, ?_, ?_⟩
  · have := selectKraus_lt (branchProbs t ops amps) u hne
    omega
  · exact fun j hj => selectKraus_cum_le (branchProbs t ops amps) u j hj
  · exact fun hu => selectKraus_cum_gt (branchProbs t ops amps) u hu
  · intro hall
    rw [selectKraus_fallback (branchProbs t ops amps) u hne
      (fun j hj => hall j (by omega)), hlen]

/-- Witness for claim C3 at a concrete one-operator channel. -/
theorem apply_noisy_spec_witness :
    ([Mat2.idM] ≠ ([] : List (Mat2 ℝ))) ∧
    (selectKraus (branchProbs 0 [Mat2.idM] ([⟨1,0⟩, 0] : List (Cx ℝ))) 0 <
      ([Mat2.idM] : List (Mat2 ℝ)).length) :=
  ⟨by simp, (apply_noisy_spec 0 [Mat2.idM] [⟨1,0⟩, 0] 0 (by simp)).2.2.1⟩

end NoiseProofs

section RejectProofs

variable {R : Type} [LinearOrderedField R]

/-- Claim C4: a configured noise channel whose branch probabilities do not
sum to 1 within tolerance (equivalently, whose Kraus operators fail the
completeness condition on the current state) is rejected with an error
surfaced to the caller, the amplitudes are left untouched (never silently
renormalized), and the engine records the error on the noisy-gate step. -/
theorem noise_reject_spec (sq : R → R) (tol : R) (t : ℕ)
    (ops : List (Mat2 R)) (amps : List (Cx R)) (u : R)
    (hbad : tol < |(branchProbs t ops amps).sum - 1|) :
    (krausChecked sq tol t ops amps u =
      (some EngErr.incompleteNoiseChannel, amps)) ∧
    (∀ (rng : ℕ → R) (st : EngState R) (q : ℕ), st.err = none →
      (∀ s2 ∈ st.reg, s2.owns q = true →
        tol < |(branchProbs (qposStore s2 q) ops s2.amps).sum - 1|) →
      tol < |(branchProbs (qposStore (ownerOf st.reg q) q) ops
        (ownerOf st.reg q).amps).sum - 1| →
      (stepOp sq tol rng st (Op.noisy q ops)).err =
        some EngErr.incompleteNoiseChannel ∧
      (stepOp sq tol rng st (Op.noisy q ops)).reg = st.reg) := by
  constructor
  · unfold krausChecked
    rw [if_neg (not_le.mpr hbad)]
  · intro rng st q herr hall howner
    constructor
    · simp only [stepOp, herr]
      unfold krausChecked
      rw [if_neg (not_le.mpr howner)]
      rfl
    · simp only [stepOp, updateOwner]
      have : ∀ s2 ∈ st.reg,
          (if s2.owns q then
            (⟨s2.qubits, (krausChecked sq tol (qposStore s2 q) ops s2.amps
              (rng st.used)).2⟩ : Store R) else s2) = s2 := by
        intro s2 hs2
        by_cases ho : s2.owns q
        · rw [if_pos ho]
          unfold krausChecked
          rw [if_neg (not_le.mpr (hall s2 hs2 ho))]
        · rw [if_neg ho]
      rw [List.map_congr_left this]
      exact List.map_id _

/-- Witness for claim C4: a channel whose branch probabilities sum to 0 on
the given store is rejected at tolerance 0 and the amplitudes are
returned unchanged. -/
theorem noise_reject_spec_witness :
    ((0 : ℚ) < |(branchProbs 0 [Mat2.idM] ([] : List (Cx ℚ))).sum - 1|) ∧
    (krausChecked (fun x => x) (0 : ℚ) 0 [Mat2.idM] [] 0 =
      (some EngErr.incompleteNoiseChannel, [])) :=
  ⟨by norm_num [branchProbs, storeNormSum, storeApplyC],
   (noise_reject_spec (fun x => x) (0 : ℚ) 0 [Mat2.idM] [] 0
     (by norm_num [branchProbs, storeNormSum, storeApplyC])).1⟩

end RejectProofs

section ResolveProofs

variable {R : Type} [LinearOrderedField R]

theorem owns_iff (s : Store R) (q : ℕ) : s.owns q = true ↔ q ∈ s.qubits := by
  simp [Store.owns, List.elem_iff]

theorem countQ_cons (h : Store R) (rest : Reg R) (q : ℕ) :
    countQ (h :: rest) q = h.qubits.count q + countQ rest q := by
  simp [countQ]

theorem involved_eq_single (reg : Reg R) (qs : List ℕ) (s : Store R)
    (hcount : ∀ q ∈ s.qubits, countQ reg q ≤ 1)
    (hs : s ∈ reg) (hqs : qs ≠ []) (hall : ∀ q ∈ qs, q ∈ s.qubits) :
    involved reg qs = [s] := by
  induction reg with
  | nil => cases hs
  | cons h rest ih =>
    obtain ⟨q0, hq0⟩ := List.exists_mem_of_ne_nil qs hqs
    have hq0s : q0 ∈ s.qubits := hall q0 hq0
    rcases List.mem_cons.mp hs with rfl | hsrest
    · have hsowns : (qs.any fun q => s.owns q) = true := by
        rw [List.any_eq_true]
        exact ⟨q0, hq0, (owns_iff s q0).mpr hq0s⟩
      unfold involved
      have hstep : List.filter (fun t => qs.any fun q => t.owns q) (s :: rest) =
          s :: List.filter (fun t => qs.any fun q => t.owns q) rest :=
        List.filter_cons_of_pos hsowns
      rw [hstep]
      have hrest : List.filter (fun t => qs.any fun q => t.owns q) rest = [] := by
        rw [List.filter_eq_nil_iff]
        intro t ht hto
        rw [List.any_eq_true] at hto
        obtain ⟨q, hq, hqo⟩ := hto
        have hqmem : q ∈ t.qubits := (owns_iff t q).mp hqo
        have hqscount := hcount q (hall q hq)
        rw [countQ_cons] at hqscount
        have h1 : 0 < s.qubits.count q := List.count_pos_iff.mpr (hall q hq)
        have h2 : 0 < countQ rest q := by
          have hpos : 0 < t.qubits.count q := List.count_pos_iff.mpr hqmem
          have hmem : t.qubits.count q ∈ rest.map fun st => st.qubits.count q :=
            List.mem_map.mpr ⟨t, ht, rfl⟩
          calc 0 < t.qubits.count q := hpos
          _ ≤ (rest.map fun st => st.qubits.count q).sum :=
            List.single_le_sum (fun x _ => Nat.zero_le x) _ hmem
        omega
      rw [hrest]
    · have hhFalse : (qs.any fun q => h.owns q) = false := by
        by_contra hc
        have hany : (qs.any fun q => h.owns q) = true := by
          cases hx : qs.any fun q => h.owns q
          · exact absurd hx hc
          · rfl
        rw [List.any_eq_true] at hany
        obtain ⟨q, hq, hqo⟩ := hany
        have hqh : q ∈ h.qubits := (owns_iff h q).mp hqo
        have hqscount := hcount q (hall q hq)
        rw [countQ_cons] at hqscount
        have h1 : 0 < h.qubits.count q := List.count_pos_iff.mpr hqh
        have h2 : 0 < countQ rest q := by
          have hqs2 : 0 < s.qubits.count q :=
            List.count_pos_iff.mpr (hall q hq)
          have hmem : s.qubits.count q ∈ rest.map fun st => st.qubits.count q :=
            List.mem_map.mpr ⟨s, hsrest, rfl⟩
          calc 0 < s.qubits.count q := hqs2
          _ ≤ (rest.map fun st => st.qubits.count q).sum :=
            List.single_le_sum (fun x _ => Nat.zero_le x) _ hmem
        omega
      unfold involved
      have hstep : List.filter (fun t => qs.any fun q => t.owns q) (h :: rest) =
          List.filter (fun t => qs.any fun q => t.owns q) rest :=
        List.filter_cons_of_neg (by rw [hhFalse]; exact Bool.false_ne_true)
      rw [hstep]
      have hcount2 : ∀ q ∈ s.qubits, countQ rest q ≤ 1 := by
        intro q hq
        have := hcount q hq
        rw [countQ_cons] at this
        omega
      exact ih hcount2 hsrest

theorem foldl_mergeTwo_qubits (rest : Reg R) : ∀ acc : Store R,
    (rest.foldl mergeTwo acc).qubits = acc.qubits ++ (rest.map Store.qubits).flatten := by
  induction rest with
  | nil => intro acc; simp
  | cons h t ih =>
    intro acc
    rw [List.foldl_cons, ih (mergeTwo acc h)]
    simp [mergeTwo, List.append_assoc]

theorem mergeList_qubits (l : Reg R) :
    (mergeList l).qubits = (l.map Store.qubits).flatten := by
  cases l with
  | nil => simp [mergeList]
  | cons s rest =>
    unfold mergeList
    rw [foldl_mergeTwo_qubits rest s]
    simp

theorem kronAmps_length (a b : List (Cx R)) :
    (kronAmps a b).length = a.length * b.length := by
  induction b with
  | nil => simp [kronAmps]
  | cons y bt ih =>
    unfold kronAmps at ih ⊢
    rw [List.flatMap_cons, List.length_append, List.length_map, ih,
      List.length_cons, Nat.mul_succ]
    omega

theorem kronAmps_getD (a b : List (Cx R)) (jA jB : ℕ)
    (hA : jA < a.length) (hB : jB < b.length) :
    (kronAmps a b).getD (jB * a.length + jA) 0 =
    a.getD jA 0 * b.getD jB 0 := by
  induction b generalizing jB with
  | nil => cases hB
  | cons y bt ih =>
    unfold kronAmps
    rw [List.flatMap_cons]
    cases jB with
    | zero =>
      rw [Nat.zero_mul, Nat.zero_add]
      rw [List.getD_append _ _ _ _ (by simpa using hA)]
      rw [getD_map_lt (fun x => x * y) a jA hA 0 0]
      simp [List.getD_cons_zero]
    | succ j =>
      have hidx : (j + 1) * a.length + jA =
          (a.map fun x => x * y).length + (j * a.length + jA) := by
        simp; ring
      rw [hidx, List.getD_append_right _ _ _ _ (Nat.le_add_right _ _),
        Nat.add_sub_cancel_left]
      have hres := ih j (by simpa using hB)
      unfold kronAmps at hres
      rw [hres]
      simp [List.getD_cons_succ]

/-- Claim C5: resolve returns the registry unchanged when all requested
qubits already share one store; otherwise it replaces the stores involved by
their Kronecker product, computed in registry order with the qubit
identifier sequences concatenated accordingly, the untouched stores kept and
the old stores discarded; the two-store tensor product keeps the first
factor in the low bits of the combined linear index. -/
theorem resolve_spec :
    (∀ (reg : Reg R) (qs : List ℕ) (s : Store R),
      (∀ q ∈ s.qubits, countQ reg q ≤ 1) → s ∈ reg → qs ≠ [] →
      (∀ q ∈ qs, q ∈ s.qubits) → resolveReg qs reg = reg) ∧
    (∀ (reg : Reg R) (qs : List ℕ), 2 ≤ (involved reg qs).length →
      resolveReg qs reg = othersReg reg qs ++ [mergeList (involved reg qs)] ∧
      (mergeList (involved reg qs)).qubits =
        ((involved reg qs).map Store.qubits).flatten ∧
      (∀ s2 ∈ involved reg qs, ∀ q ∈ s2.qubits,
        q ∈ (mergeList (involved reg qs)).qubits)) ∧
    (∀ (s t : Store R), (mergeTwo s t).qubits = s.qubits ++ t.qubits ∧
      (mergeTwo s t).amps.length = s.amps.length * t.amps.length ∧
      ∀ jA jB, jA < s.amps.length → jB < t.amps.length →
        (mergeTwo s t).amps.getD (jB * s.amps.length + jA) 0 =
        s.amps.getD jA 0 * t.amps.getD jB 0) := by
  refine ⟨?_, ?_, ?_⟩
  · intro reg qs s hcount hs hqs hall
    unfold resolveReg
    rw [involved_eq_single reg qs s hcount hs hqs hall]
    simp
  · intro reg qs hlen
    refine ⟨?_, mergeList_qubits _, ?_⟩
    · unfold resolveReg
      rw [if_neg (by omega)]
    · intro s2 hs2 q hq
      rw [mergeList_qubits, List.mem_flatten]
      exact ⟨s2.qubits, List.mem_map.mpr ⟨s2, hs2, rfl⟩, hq⟩
  · intro s t
    refine ⟨rfl, kronAmps_length s.amps t.amps, ?_⟩
    intro jA jB hA hB
    exact kronAmps_getD s.amps t.amps jA jB hA hB

/-- Witness for claim C5: a registry of two disjoint one-qubit stores, one
resolve that keeps it unchanged and one that merges. -/
theorem resolve_spec_witness :
    (resolveReg [5] ([⟨[5], [1, 0]⟩, ⟨[7], [1, 0]⟩] : Reg ℚ) =
      [⟨[5], [1, 0]⟩, ⟨[7], [1, 0]⟩]) ∧
    (resolveReg [5, 7] ([⟨[5], [1, 0]⟩, ⟨[7], [1, 0]⟩] : Reg ℚ) =
      othersReg [⟨[5], [1, 0]⟩, ⟨[7], [1, 0]⟩] [5, 7] ++
        [mergeList (involved [⟨[5], [1, 0]⟩, ⟨[7], [1, 0]⟩] [5, 7])]) :=
  ⟨resolve_spec.1 [⟨[5], [1, 0]⟩, ⟨[7], [1, 0]⟩] [5] ⟨[5], [1, 0]⟩
      (by decide) (by simp) (by simp) (by simp),
   (resolve_spec.2.1 [⟨[5], [1, 0]⟩, ⟨[7], [1, 0]⟩] [5, 7] (by decide)).1⟩

end ResolveProofs

section InvariantProofs

variable {R : Type} [LinearOrderedField R]

theorem countQ_append (l1 l2 : Reg R) (q : ℕ) :
    countQ (l1 ++ l2) q = countQ l1 q + countQ l2 q := by
  simp [countQ]

theorem countQ_perm (l1 l2 : Reg R) (h : l1.Perm l2) (q : ℕ) :
    countQ l1 q = countQ l2 q := by
  unfold countQ
  exact (h.map fun s => s.qubits.count q).sum_eq

theorem mergeList_count (l : Reg R) (q : ℕ) :
    (mergeList l).qubits.count q = countQ l q := by
  rw [mergeList_qubits, List.count_flatten, List.map_map]
  rfl

theorem resolveReg_countQ (qs : List ℕ) (reg : Reg R) (q : ℕ) :
    countQ (resolveReg qs reg) q = countQ reg q := by
  unfold resolveReg
  by_cases hlen : (involved reg qs).length ≤ 1
  · rw [if_pos hlen]
  · rw [if_neg hlen, countQ_append]
    have hm : countQ [mergeList (involved reg qs)] q =
        countQ (involved reg qs) q := by
      show (mergeList (involved reg qs)).qubits.count q + 0 = _
      rw [Nat.add_zero]
      exact mergeList_count _ q
    rw [hm]
    have hperm := List.filter_append_perm
      (fun s => qs.any fun q2 => s.owns q2) reg
    have htot := countQ_perm _ _ hperm q
    rw [countQ_append] at htot
    unfold involved othersReg
    omega

theorem updateOwner_qubits (q0 : ℕ) (f : Store R → List (Cx R)) (reg : Reg R) :
    (updateOwner q0 f reg).map Store.qubits = reg.map Store.qubits := by
  unfold updateOwner
  rw [List.map_map]
  apply List.map_congr_left
  intro s _
  by_cases h : s.owns q0 <;> simp [h]

theorem updateOwner_countQ (q0 : ℕ) (f : Store R → List (Cx R)) (reg : Reg R)
    (q : ℕ) : countQ (updateOwner q0 f reg) q = countQ reg q := by
  unfold countQ
  calc ((updateOwner q0 f reg).map fun s => s.qubits.count q).sum
      = (((updateOwner q0 f reg).map Store.qubits).map fun l => l.count q).sum := by
        rw [List.map_map]; rfl
  _ = ((reg.map Store.qubits).map fun l => l.count q).sum := by
        rw [updateOwner_qubits]
  _ = (reg.map fun s => s.qubits.count q).sum := by rw [List.map_map]; rfl

theorem updateOwner_partInv (alloc : List ℕ) (q0 : ℕ)
    (f : Store R → List (Cx R)) (reg : Reg R) (h : partInv alloc reg) :
    partInv alloc (updateOwner q0 f reg) := by
  constructor
  · intro q hq
    rw [updateOwner_countQ]
    exact h.1 q hq
  · intro s2 hs2 q hq
    rcases List.mem_map.mp hs2 with ⟨s, hs, rfl⟩
    by_cases ho : s.owns q0
    · simp only [if_pos ho] at hq
      exact h.2 s hs q hq
    · simp only [if_neg ho] at hq
      exact h.2 s hs q hq

theorem updateOwner_sameStore (q0 : ℕ) (f : Store R → List (Cx R))
    (reg : Reg R) (q1 q2 : ℕ) (h : sameStore reg q1 q2) :
    sameStore (updateOwner q0 f reg) q1 q2 := by
  obtain ⟨s, hs, h1, h2⟩ := h
  refine ⟨if s.owns q0 then ⟨s.qubits, f s⟩ else s,
    List.mem_map.mpr ⟨s, hs, rfl⟩, ?_, ?_⟩ <;>
    by_cases ho : s.owns q0 <;> simp [ho, h1, h2]

theorem resolveReg_partInv (alloc : List ℕ) (qs : List ℕ) (reg : Reg R)
    (h : partInv alloc reg) : partInv alloc (resolveReg qs reg) := by
  constructor
  · intro q hq
    rw [resolveReg_countQ]
    exact h.1 q hq
  · intro s2 hs2 q hq
    unfold resolveReg at hs2
    by_cases hlen : (involved reg qs).length ≤ 1
    · rw [if_pos hlen] at hs2
      exact h.2 s2 hs2 q hq
    · rw [if_neg hlen] at hs2
      rcases List.mem_append.mp hs2 with hs3 | hs3
      · exact h.2 s2 (List.mem_filter.mp hs3).1 q hq
      · rcases List.mem_singleton.mp hs3 with rfl
        rw [mergeList_qubits] at hq
        rcases List.mem_flatten.mp hq with ⟨ql, hql, hq2⟩
        rcases List.mem_map.mp hql with ⟨s3, hs4, rfl⟩
        exact h.2 s3 (List.mem_filter.mp hs4).1 q hq2

theorem resolveReg_sameStore (qs : List ℕ) (reg : Reg R) (q1 q2 : ℕ)
    (h : sameStore reg q1 q2) : sameStore (resolveReg qs reg) q1 q2 := by
  obtain ⟨s, hs, h1, h2⟩ := h
  unfold resolveReg
  by_cases hlen : (involved reg qs).length ≤ 1
  · rw [if_pos hlen]
    exact ⟨s, hs, h1, h2⟩
  · rw [if_neg hlen]
    by_cases hp : (qs.any fun q => s.owns q) = true
    · refine ⟨mergeList (involved reg qs),
        List.mem_append_right _ (List.mem_singleton.mpr rfl), ?_, ?_⟩ <;>
        · rw [mergeList_qubits]
          refine List.mem_flatten.mpr ⟨s.qubits,
            List.mem_map.mpr ⟨s, List.mem_filter.mpr ⟨hs, hp⟩, rfl⟩, ?_⟩
          assumption
    · refine ⟨s, List.mem_append_left _ ?_, h1, h2⟩
      refine List.mem_filter.mpr ⟨hs, ?_⟩
      simp only [Bool.not_eq_true] at hp
      simp [hp]

theorem stepOp_inv (sq : R → R) (tol : R) (rng : ℕ → R) (alloc : List ℕ)
    (st : EngState R) (op : Op R) (h : partInv alloc st.reg) :
    partInv alloc (stepOp sq tol rng st op).reg ∧
    ∀ q1 q2, sameStore st.reg q1 q2 →
      sameStore (stepOp sq tol rng st op).reg q1 q2 := by
  cases op with
  | gate1 q m =>
    refine ⟨updateOwner_partInv _ _ _ _ (resolveReg_partInv _ _ _ h),
      fun q1 q2 hss =>
        updateOwner_sameStore _ _ _ _ _ (resolveReg_sameStore _ _ _ _ hss)⟩
  | cgate1 q cs m =>
    refine ⟨updateOwner_partInv _ _ _ _ (resolveReg_partInv _ _ _ h),
      fun q1 q2 hss =>
        updateOwner_sameStore _ _ _ _ _ (resolveReg_sameStore _ _ _ _ hss)⟩
  | noisy q ops =>
    exact ⟨updateOwner_partInv _ _ _ _ h,
      fun q1 q2 hss => updateOwner_sameStore _ _ _ _ _ hss⟩
  | meas q =>
    exact ⟨updateOwner_partInv _ _ _ _ h,
      fun q1 q2 hss => updateOwner_sameStore _ _ _ _ _ hss⟩
  | reset q =>
    exact ⟨updateOwner_partInv _ _ _ _ h,
      fun q1 q2 hss => updateOwner_sameStore _ _ _ _ _ hss⟩

/-- Claim C6: every engine operation preserves the registry invariant (each
allocated qubit sits in exactly one store, stores mention only allocated
qubits), and merging is monotonic: qubits sharing a store keep sharing a
store in every reachable state. -/
theorem engine_invariant_spec (sq : R → R) (tol : R) (rng : ℕ → R)
    (alloc : List ℕ) (ops : List (Op R)) (st : EngState R)
    (h : partInv alloc st.reg) :
    partInv alloc (runEngine sq tol rng st ops).reg ∧
    ∀ q1 q2, sameStore st.reg q1 q2 →
      sameStore (runEngine sq tol rng st ops).reg q1 q2 := by
  induction ops generalizing st with
  | nil => exact ⟨h, fun _ _ hss => hss⟩
  | cons op rest ih =>
    have hstep := stepOp_inv sq tol rng alloc st op h
    have hrest := ih (stepOp sq tol rng st op) hstep.1
    exact ⟨hrest.1, fun q1 q2 hss => hrest.2 q1 q2 (hstep.2 q1 q2 hss)⟩

/-- Witness for claim C6: a two-qubit controlled gate merging two disjoint
one-qubit stores preserves the partition invariant. -/
theorem engine_invariant_spec_witness :
    partInv [5, 7] ([⟨[5], [1, 0]⟩, ⟨[7], [1, 0]⟩] : Reg ℚ) ∧
    partInv [5, 7] ((runEngine (fun x : ℚ => x) 0 (fun _ => 0)
      (⟨[⟨[5], [1, 0]⟩, ⟨[7], [1, 0]⟩], [], 0, none⟩ : EngState ℚ)
      [Op.cgate1 5 [7] xMat]).reg) :=
  ⟨by decide,
   (engine_invariant_spec (fun x : ℚ => x) 0 (fun _ => 0) [5, 7]
     [Op.cgate1 5 [7] xMat]
     (⟨[⟨[5], [1, 0]⟩, ⟨[7], [1, 0]⟩], [], 0, none⟩ : EngState ℚ)
     (by decide)).1⟩

end InvariantProofs

section DeterminismProofs

variable {R : Type} [LinearOrderedField R]

theorem sampleCount_cons (op : Op R) (rest : List (Op R)) :
    sampleCount (op :: rest) = sampleCount [op] + sampleCount rest := by
  simp [sampleCount]

theorem stepOp_used (sq : R → R) (tol : R) (rng : ℕ → R) (st : EngState R)
    (op : Op R) : (stepOp sq tol rng st op).used = st.used + sampleCount [op] := by
  cases op <;> simp [stepOp, sampleCount]

theorem runEngine_used (sq : R → R) (tol : R) (rng : ℕ → R) :
    ∀ (ops : List (Op R)) (st : EngState R),
    (runEngine sq tol rng st ops).used = st.used + sampleCount ops := by
  intro ops
  induction ops with
  | nil => intro st; simp [runEngine, sampleCount]
  | cons op rest ih =>
    intro st
    show (runEngine sq tol rng (stepOp sq tol rng st op) rest).used = _
    rw [ih, stepOp_used]
    have hc := sampleCount_cons op rest
    omega

theorem runEngine_rng_congr (sq : R → R) (tol : R) :
    ∀ (ops : List (Op R)) (rng1 rng2 : ℕ → R) (st : EngState R),
    (∀ i, i < st.used + sampleCount ops → rng1 i = rng2 i) →
    runEngine sq tol rng1 st ops = runEngine sq tol rng2 st ops := by
  intro ops
  induction ops with
  | nil => intro rng1 rng2 st _; rfl
  | cons op rest ih =>
    intro rng1 rng2 st hpre
    have hstep : stepOp sq tol rng1 st op = stepOp sq tol rng2 st op := by
      cases op with
      | gate1 q m => rfl
      | cgate1 q cs m => rfl
      | noisy q ops2 =>
        have h := hpre st.used (by simp [sampleCount])
        simp [stepOp, h]
      | meas q =>
        have h := hpre st.used (by simp [sampleCount])
        simp [stepOp, h]
      | reset q =>
        have h := hpre st.used (by simp [sampleCount])
        simp [stepOp, h]
    show runEngine sq tol rng1 (stepOp sq tol rng1 st op) rest = _
    rw [hstep]
    apply ih
    intro i hi
    apply hpre
    rw [stepOp_used] at hi
    rw [sampleCount_cons]
    omega

/-- Claim C8: two engine instances given the same Random Source stream (in
particular the stream derived from the same seed) and the same operation
sequence produce identical states, outcomes included; every sampling call
consumes exactly one logical draw in a fixed order, so the run depends only
on the consumed prefix of the stream and replay under a fixed seed is
deterministic. -/
theorem determinism_spec (sq : R → R) (tol : R) (ops : List (Op R))
    (rng1 rng2 : ℕ → R) (st : EngState R)
    (h : ∀ i, i < st.used + sampleCount ops → rng1 i = rng2 i) :
    runEngine sq tol rng1 st ops = runEngine sq tol rng2 st ops ∧
    (runEngine sq tol rng1 st ops).used = st.used + sampleCount ops ∧
    (runEngine sq tol rng1 st ops).outs = (runEngine sq tol rng2 st ops).outs ∧
    (runEngine sq tol rng1 st ops).reg = (runEngine sq tol rng2 st ops).reg ∧
    ∀ (sq2 : ℚ → ℚ) (tol2 : ℚ) (st2 : EngState ℚ) (ops2 : List (Op ℚ))
      (seed1 seed2 : ℕ), seed1 = seed2 →
      runEngine sq2 tol2 (randStream seed1) st2 ops2 =
      runEngine sq2 tol2 (randStream seed2) st2 ops2 := by
  have heq := runEngine_rng_congr sq tol ops rng1 rng2 st h
  refine ⟨heq, runEngine_used sq tol rng1 ops st, by rw [heq], by rw [heq],
    ?_⟩
  intro sq2 tol2 st2 ops2 seed1 seed2 hseed
  rw [hseed]

/-- Witness for claim C8: a one-measurement run under two streams agreeing
on the single consumed draw. -/
theorem determinism_spec_witness :
    runEngine (fun x : ℚ => x) 0 (fun _ => 0)
      (⟨[⟨[5], [1, 0]⟩], [], 0, none⟩ : EngState ℚ) [Op.meas 5] =
    runEngine (fun x : ℚ => x) 0 (fun _ => 0)
      (⟨[⟨[5], [1, 0]⟩], [], 0, none⟩ : EngState ℚ) [Op.meas 5] :=
  (determinism_spec (fun x : ℚ => x) 0 [Op.meas 5] (fun _ => 0) (fun _ => 0)
    (⟨[⟨[5], [1, 0]⟩], [], 0, none⟩ : EngState ℚ) (fun _ _ => rfl)).1

end DeterminismProofs

section NormProofs

variable {R : Type} [LinearOrderedField R]

/-- Real part of the quadratic form of a 2-by-2 matrix on a pair of
amplitudes, used to reduce norm computations to matrix identities. -/
def bilinRe (h : Mat2 R) (x y : Cx R) : R :=
  (Cx.conj x * (h.a * x + h.b * y) + Cx.conj y * (h.c * x + h.d * y)).re

theorem pair_quad (m : Mat2 R) (x y : Cx R) :
    Cx.normSq (m.a * x + m.b * y) + Cx.normSq (m.c * x + m.d * y) =
    bilinRe (Mat2.mulM (Mat2.adjoint m) m) x y := by
  simp only [bilinRe, Mat2.mulM, Mat2.adjoint, Cx.mul_def, Cx.add_def,
    Cx.conj, Cx.normSq]
  ring

theorem bilinRe_addM (h1 h2 : Mat2 R) (x y : Cx R) :
    bilinRe (Mat2.addM h1 h2) x y = bilinRe h1 x y + bilinRe h2 x y := by
  simp only [bilinRe, Mat2.addM, Cx.mul_def, Cx.add_def, Cx.conj]
  ring

theorem bilinRe_zeroM (x y : Cx R) : bilinRe (Mat2.zeroM : Mat2 R) x y = 0 := by
  simp only [bilinRe, Mat2.zeroM, Cx.mul_def, Cx.add_def, Cx.conj, Cx.zero_def]
  ring

theorem bilinRe_idM (x y : Cx R) :
    bilinRe (Mat2.idM : Mat2 R) x y = Cx.normSq x + Cx.normSq y := by
  simp only [bilinRe, Mat2.idM, Cx.mul_def, Cx.add_def, Cx.conj, Cx.zero_def,
    Cx.one_def, Cx.normSq]
  ring

theorem bilinRe_sumM (l : List (Mat2 R)) (x y : Cx R) :
    bilinRe (Mat2.sumM l) x y = (l.map fun h => bilinRe h x y).sum := by
  induction l with
  | nil => simp [Mat2.sumM, bilinRe_zeroM]
  | cons h t ih =>
    simp only [Mat2.sumM, List.foldr_cons, List.map_cons, List.sum_cons]
    rw [show (Mat2.addM h (List.foldr Mat2.addM Mat2.zeroM t)) =
      Mat2.addM h (Mat2.sumM t) from rfl, bilinRe_addM, ih]

theorem pair_unitary (m : Mat2 R) (hm : m.unitary) (x y : Cx R) :
    Cx.normSq (m.a * x + m.b * y) + Cx.normSq (m.c * x + m.d * y) =
    Cx.normSq x + Cx.normSq y := by
  have hm2 : Mat2.mulM (Mat2.adjoint m) m = Mat2.idM := hm
  rw [pair_quad, hm2, bilinRe_idM]

theorem pair_complete (ops : List (Mat2 R)) (hc : Mat2.complete ops)
    (x y : Cx R) :
    (ops.map fun K => Cx.normSq (K.a * x + K.b * y) +
      Cx.normSq (K.c * x + K.d * y)).sum = Cx.normSq x + Cx.normSq y := by
  have hc2 : Mat2.sumM (ops.map fun K => Mat2.mulM (Mat2.adjoint K) K) =
      Mat2.idM := hc
  have h1 : (ops.map fun K => Cx.normSq (K.a * x + K.b * y) +
      Cx.normSq (K.c * x + K.d * y)).sum =
      (ops.map fun K => bilinRe (Mat2.mulM (Mat2.adjoint K) K) x y).sum := by
    congr 1
    apply List.map_congr_left
    intro K _
    exact pair_quad K x y
  rw [h1]
  have h2 : (ops.map fun K => bilinRe (Mat2.mulM (Mat2.adjoint K) K) x y) =
      ((ops.map fun K => Mat2.mulM (Mat2.adjoint K) K).map
        fun h => bilinRe h x y) := by
    rw [List.map_map]
    exact List.map_congr_left fun K _ => rfl
  rw [h2, ← bilinRe_sumM, hc2, bilinRe_idM]

theorem xor_two_pow_lt {a k t : ℕ} (ha : a < 2 ^ k) (ht : t < k) :
    a ^^^ 2 ^ t < 2 ^ k :=
  Nat.xor_lt_two_pow ha (Nat.pow_lt_pow_right (by norm_num) ht)

theorem testBit_xor_self (a t : ℕ) :
    (a ^^^ 2 ^ t).testBit t = !a.testBit t := by
  rw [Nat.testBit_xor, Nat.testBit_two_pow_self, Bool.xor_true]

theorem testBit_xor_ne (a t p : ℕ) (hp : p ≠ t) :
    (a ^^^ 2 ^ t).testBit p = a.testBit p := by
  rw [Nat.testBit_xor, Nat.testBit_two_pow, decide_eq_false (Ne.symm hp),
    Bool.xor_false]

theorem xor_xor_cancel (a t : ℕ) : a ^^^ 2 ^ t ^^^ 2 ^ t = a := by
  rw [Nat.xor_assoc, Nat.xor_self, Nat.xor_zero]

theorem storeNorm_pair_split (k t : ℕ) (ht : t < k) (f : ℕ → R) :
    ∑ i ∈ Finset.range (2 ^ k), f i =
    ∑ i ∈ (Finset.range (2 ^ k)).filter (fun i => Nat.testBit i t = false),
      (f i + f (i ^^^ 2 ^ t)) := by
  rw [Finset.sum_add_distrib]
  rw [← Finset.sum_filter_add_sum_filter_not (Finset.range (2 ^ k))
    (fun i => Nat.testBit i t = false) f]
  congr 1
  apply Finset.sum_nbij' (fun i => i ^^^ 2 ^ t) (fun i => i ^^^ 2 ^ t)
  · intro a ha
    rw [Finset.mem_filter, Finset.mem_range] at ha ⊢
    have hbit : a.testBit t = true := by
      rcases ha with ⟨_, h2⟩
      simpa using h2
    refine ⟨xor_two_pow_lt ha.1 ht, ?_⟩
    rw [testBit_xor_self, hbit]
    rfl
  · intro a ha
    rw [Finset.mem_filter, Finset.mem_range] at ha ⊢
    refine ⟨xor_two_pow_lt ha.1 ht, ?_⟩
    rw [testBit_xor_self, ha.2]
    simp
  · intro a _
    exact xor_xor_cancel a t
  · intro a _
    exact xor_xor_cancel a t
  · intro a _
    rw [xor_xor_cancel]

theorem storeNormSum_eq (amps : List (Cx R)) :
    storeNormSum amps =
    ∑ i ∈ Finset.range amps.length, Cx.normSq (amps.getD i 0) := by
  unfold storeNormSum
  rw [← listSum_range_eq, sum_range_getD_map amps 0 Cx.normSq]

theorem storeP0_eq (t : ℕ) (amps : List (Cx R)) :
    storeP0 t amps =
    ∑ i ∈ (Finset.range amps.length).filter
      (fun i => Nat.testBit i t = false), Cx.normSq (amps.getD i 0) := by
  unfold storeP0
  rw [listSum_range_eq, Finset.sum_filter]
  apply Finset.sum_congr rfl
  intro i _
  cases h : Nat.testBit i t <;> simp [h]

theorem normSq_nonneg (x : Cx R) : 0 ≤ Cx.normSq x := by
  unfold Cx.normSq
  nlinarith [mul_self_nonneg x.re, mul_self_nonneg x.im]

theorem storeP0_nonneg (t : ℕ) (amps : List (Cx R)) : 0 ≤ storeP0 t amps := by
  rw [storeP0_eq]
  apply Finset.sum_nonneg
  intro i _
  exact normSq_nonneg _

theorem storeApplyC_length (t : ℕ) (cs : List ℕ) (m : Mat2 R)
    (amps : List (Cx R)) : (storeApplyC t cs m amps).length = amps.length := by
  simp [storeApplyC]

theorem ctrlOk_xor (cs : List ℕ) (t i : ℕ) (htc : t ∉ cs) :
    ctrlOk cs (i ^^^ 2 ^ t) = ctrlOk cs i := by
  induction cs with
  | nil => rfl
  | cons c ct ih =>
    have hct : t ∉ ct := fun h => htc (List.mem_cons_of_mem c h)
    have hc : c ≠ t := fun h => htc (h ▸ List.mem_cons_self c ct)
    unfold ctrlOk at ih ⊢
    rw [List.all_cons, List.all_cons, ih hct, testBit_xor_ne i t c hc]

theorem storeApplyC_norm (k t : ℕ) (cs : List ℕ) (m : Mat2 R)
    (amps : List (Cx R)) (hlen : amps.length = 2 ^ k) (ht : t < k)
    (htc : t ∉ cs) (hm : m.unitary) :
    storeNormSum (storeApplyC t cs m amps) = storeNormSum amps := by
  rw [storeNormSum_eq, storeNormSum_eq, storeApplyC_length, hlen]
  rw [storeNorm_pair_split k t ht, storeNorm_pair_split k t ht]
  apply Finset.sum_congr rfl
  intro i hi
  rw [Finset.mem_filter, Finset.mem_range] at hi
  obtain ⟨hilt, hibit⟩ := hi
  have hjlt : i ^^^ 2 ^ t < 2 ^ k := xor_two_pow_lt hilt ht
  have hjbit : (i ^^^ 2 ^ t).testBit t = true := by
    rw [testBit_xor_self, hibit]
    rfl
  have hF : ∀ a, a < 2 ^ k → (storeApplyC t cs m amps).getD a 0 =
      if ctrlOk cs a then
        if Nat.testBit a t then
          m.c * amps.getD (a ^^^ 2 ^ t) 0 + m.d * amps.getD a 0
        else m.a * amps.getD a 0 + m.b * amps.getD (a ^^^ 2 ^ t) 0
      else amps.getD a 0 := by
    intro a ha
    show ((List.range amps.length).map _).getD a 0 = _
    rw [getD_range_map _ _ _ (by rw [hlen]; exact ha)]
  rw [hF i hilt, hF _ hjlt]
  rw [ctrlOk_xor cs t i htc, hibit, hjbit, xor_xor_cancel]
  by_cases hco : ctrlOk cs i
  · simp only [hco, if_true, Bool.false_eq_true, if_false]
    exact pair_unitary m hm _ _
  · simp only [hco, Bool.false_eq_true, if_false]

theorem collapse_length (sq : R → R) (t : ℕ) (amps : List (Cx R)) (u : R) :
    ((collapseStore sq t amps u).2).length = amps.length := by
  simp [collapseStore]

theorem filter_true_sum (t : ℕ) (amps : List (Cx R)) :
    ∑ i ∈ (Finset.range amps.length).filter
      (fun i => Nat.testBit i t = true), Cx.normSq (amps.getD i 0) =
    storeNormSum amps - storeP0 t amps := by
  have hsplit := Finset.sum_filter_add_sum_filter_not (Finset.range amps.length)
    (fun i => Nat.testBit i t = false) (fun i => Cx.normSq (amps.getD i 0))
  have hconv : (Finset.range amps.length).filter
      (fun i => ¬ Nat.testBit i t = false) =
      (Finset.range amps.length).filter (fun i => Nat.testBit i t = true) := by
    apply Finset.filter_congr
    intro i _
    simp
  rw [hconv] at hsplit
  rw [storeNormSum_eq, storeP0_eq]
  linarith

theorem collapse_norm (k t : ℕ) (sq : R → R)
    (hsq : ∀ p, 0 ≤ p → sq p * sq p = p) (amps : List (Cx R)) (u : R)
    (hlen : amps.length = 2 ^ k) (hnorm : storeNormSum amps = 1)
    (hu0 : 0 ≤ u) (hu1 : u < 1) :
    storeNormSum ((collapseStore sq t amps u).2) = 1 := by
  have hp0nn : 0 ≤ storeP0 t amps := storeP0_nonneg t amps
  have hgd : ∀ i, i < amps.length → ((collapseStore sq t amps u).2).getD i 0 =
      if Nat.testBit i t = (if u < storeP0 t amps then false else true) then
        Cx.divR (amps.getD i 0)
          (if u < storeP0 t amps then sq (storeP0 t amps)
           else sq (1 - storeP0 t amps))
      else 0 := by
    intro i hi
    show ((List.range amps.length).map _).getD i 0 = _
    rw [getD_range_map _ _ _ hi]
  rw [storeNormSum_eq, collapse_length]
  by_cases hout : u < storeP0 t amps
  · have hcong : ∀ i ∈ Finset.range amps.length,
        Cx.normSq (((collapseStore sq t amps u).2).getD i 0) =
        if Nat.testBit i t = false then
          Cx.normSq (amps.getD i 0) /
            (sq (storeP0 t amps) * sq (storeP0 t amps))
        else 0 := by
      intro i hi
      rw [hgd i (Finset.mem_range.mp hi)]
      simp only [if_pos hout]
      by_cases hb : Nat.testBit i t = false
      · rw [if_pos hb, if_pos hb, Cx.normSq_divR]
      · rw [if_neg hb, if_neg hb, Cx.normSq_zero]
    rw [Finset.sum_congr rfl hcong, ← Finset.sum_filter, ← Finset.sum_div,
      ← storeP0_eq, hsq _ hp0nn]
    have hpos : storeP0 t amps ≠ 0 := by
      intro hz
      rw [hz] at hout
      exact absurd hout (not_lt.mpr hu0)
    exact div_self hpos
  · have h1p : 0 < 1 - storeP0 t amps := by
      have : storeP0 t amps ≤ u := not_lt.mp hout
      linarith
    have hcong : ∀ i ∈ Finset.range amps.length,
        Cx.normSq (((collapseStore sq t amps u).2).getD i 0) =
        if Nat.testBit i t = true then
          Cx.normSq (amps.getD i 0) /
            (sq (1 - storeP0 t amps) * sq (1 - storeP0 t amps))
        else 0 := by
      intro i hi
      rw [hgd i (Finset.mem_range.mp hi)]
      simp only [if_neg hout]
      by_cases hb : Nat.testBit i t = true
      · rw [if_pos hb, if_pos hb, Cx.normSq_divR]
      · rw [if_neg hb, if_neg hb, Cx.normSq_zero]
    rw [Finset.sum_congr rfl hcong, ← Finset.sum_filter, ← Finset.sum_div,
      filter_true_sum, hnorm, hsq _ (le_of_lt h1p)]
    exact div_self (ne_of_gt h1p)

theorem listSum_map_mulR {β : Type} (l : List β) (g : β → R) (c : R) :
    (l.map fun x => g x * c).sum = (l.map g).sum * c := by
  induction l with
  | nil => simp
  | cons a t ih => simp [ih]; ring

theorem kronAmps_norm (a b : List (Cx R)) :
    storeNormSum (kronAmps a b) = storeNormSum a * storeNormSum b := by
  induction b with
  | nil => simp [kronAmps, storeNormSum]
  | cons y bt ih =>
    unfold kronAmps storeNormSum at ih ⊢
    rw [List.flatMap_cons, List.map_append, List.sum_append, ih]
    have h1 : ((a.map fun x => x * y).map Cx.normSq).sum =
        (a.map Cx.normSq).sum * Cx.normSq y := by
      rw [List.map_map]
      have h2 : (Cx.normSq ∘ fun x => x * y) =
          fun x => Cx.normSq x * Cx.normSq y :=
        funext fun x => Cx.normSq_mul x y
      rw [h2, listSum_map_mulR]
    rw [h1]
    simp only [List.map_cons, List.sum_cons]
    ring

theorem storeNormSum_divR (l : List (Cx R)) (r : R) :
    storeNormSum (l.map fun z => Cx.divR z r) = storeNormSum l / (r * r) := by
  unfold storeNormSum
  rw [List.map_map]
  have h : (Cx.normSq ∘ fun z => Cx.divR z r) =
      fun z => Cx.normSq z / (r * r) :=
    funext fun z => Cx.normSq_divR z r
  rw [h]
  have h2 : (l.map fun z => Cx.normSq z / (r * r)) =
      ((l.map Cx.normSq).map fun x => x / (r * r)) := by
    rw [List.map_map]
    exact List.map_congr_left fun z _ => rfl
  rw [h2, listSum_map_div]

theorem cumSum_zero (l : List R) : cumSum l 0 = 0 := rfl

theorem cumSum_succ (l : List R) (n : ℕ) (hn : n < l.length) :
    cumSum l (n + 1) = cumSum l n + l.getD n 0 := by
  unfold cumSum
  rw [List.take_succ, List.sum_append]
  congr 1
  rw [List.getElem?_eq_getElem hn]
  simp [List.getD_eq_getElem?_getD, List.getElem?_eq_getElem hn]

theorem listSum_finsetSum_comm {β : Type} (l : List β) (s : Finset ℕ)
    (g : β → ℕ → R) :
    (l.map fun b => ∑ i ∈ s, g b i).sum = ∑ i ∈ s, (l.map fun b => g b i).sum := by
  induction l with
  | nil => simp
  | cons b t ih => simp [ih, Finset.sum_add_distrib]

theorem storeApply1_getD (t : ℕ) (m : Mat2 R) (amps : List (Cx R)) (a : ℕ)
    (ha : a < amps.length) : (storeApplyC t [] m amps).getD a 0 =
    if Nat.testBit a t then
      m.c * amps.getD (a ^^^ 2 ^ t) 0 + m.d * amps.getD a 0
    else m.a * amps.getD a 0 + m.b * amps.getD (a ^^^ 2 ^ t) 0 := by
  show ((List.range amps.length).map _).getD a 0 = _
  rw [getD_range_map _ _ _ ha, if_pos (show ctrlOk [] a = true from rfl)]

theorem branchProbs_sum (k t : ℕ) (ht : t < k) (ops : List (Mat2 R))
    (hc : Mat2.complete ops) (amps : List (Cx R))
    (hlen : amps.length = 2 ^ k) :
    (branchProbs t ops amps).sum = storeNormSum amps := by
  unfold branchProbs
  have h1 : ∀ K ∈ ops, storeNormSum (storeApplyC t [] K amps) =
      ∑ i ∈ (Finset.range (2 ^ k)).filter (fun i => Nat.testBit i t = false),
        (Cx.normSq (K.a * amps.getD i 0 + K.b * amps.getD (i ^^^ 2 ^ t) 0) +
         Cx.normSq (K.c * amps.getD i 0 + K.d * amps.getD (i ^^^ 2 ^ t) 0)) := by
    intro K _
    rw [storeNormSum_eq, storeApplyC_length, hlen, storeNorm_pair_split k t ht]
    apply Finset.sum_congr rfl
    intro i hi
    rw [Finset.mem_filter, Finset.mem_range] at hi
    obtain ⟨hilt, hibit⟩ := hi
    have hjlt : i ^^^ 2 ^ t < 2 ^ k := xor_two_pow_lt hilt ht
    have hjbit : (i ^^^ 2 ^ t).testBit t = true := by
      rw [testBit_xor_self, hibit]
      rfl
    rw [storeApply1_getD t K amps i (by rw [hlen]; exact hilt),
      storeApply1_getD t K amps _ (by rw [hlen]; exact hjlt),
      hibit, hjbit, xor_xor_cancel]
    simp only [Bool.false_eq_true, if_false, if_true]
  rw [List.map_congr_left h1, listSum_finsetSum_comm,
    storeNormSum_eq, hlen, storeNorm_pair_split k t ht]
  apply Finset.sum_congr rfl
  intro i _
  exact pair_complete ops hc _ _

theorem kraus_norm (k t : ℕ) (sq : R → R)
    (hsq : ∀ p, 0 ≤ p → sq p * sq p = p) (ops : List (Mat2 R))
    (hne : ops ≠ []) (hc : Mat2.complete ops) (amps : List (Cx R)) (u : R)
    (hlen : amps.length = 2 ^ k) (ht : t < k)
    (hnorm : storeNormSum amps = 1) (hu0 : 0 ≤ u) (hu1 : u < 1) :
    storeNormSum (krausCollapse sq t ops amps u) = 1 := by
  have hpssum : (branchProbs t ops amps).sum = 1 := by
    rw [branchProbs_sum k t ht ops hc amps hlen, hnorm]
  have hpslen : (branchProbs t ops amps).length = ops.length := by
    simp [branchProbs]
  have hpsne : branchProbs t ops amps ≠ [] := by
    intro hnil
    apply hne
    have := congrArg List.length hnil
    rw [hpslen] at this
    exact List.length_eq_zero.mp this
  have hjlt : selectKraus (branchProbs t ops amps) u <
      (branchProbs t ops amps).length :=
    selectKraus_lt (branchProbs t ops amps) u hpsne
  have hcumlo : cumSum (branchProbs t ops amps)
      (selectKraus (branchProbs t ops amps) u) ≤ u := by
    cases hj0 : selectKraus (branchProbs t ops amps) u with
    | zero => rw [cumSum_zero]; exact hu0
    | succ n =>
      have := selectKraus_cum_le (branchProbs t ops amps) u n (by omega)
      exact this
  have hcumhi : u < cumSum (branchProbs t ops amps)
      (selectKraus (branchProbs t ops amps) u + 1) :=
    selectKraus_cum_gt (branchProbs t ops amps) u (by rw [hpssum]; exact hu1)
  have hpj : 0 < (branchProbs t ops amps).getD
      (selectKraus (branchProbs t ops amps) u) 0 := by
    have := cumSum_succ (branchProbs t ops amps)
      (selectKraus (branchProbs t ops amps) u) hjlt
    linarith
  have hpj2 : (branchProbs t ops amps).getD
      (selectKraus (branchProbs t ops amps) u) 0 =
      storeNormSum (storeApplyC t []
        (ops.getD (selectKraus (branchProbs t ops amps) u) Mat2.zeroM) amps) := by
    show (ops.map fun K => storeNormSum (storeApplyC t [] K amps)).getD _ 0 = _
    exact getD_map_lt _ ops _ (by omega) 0 Mat2.zeroM
  show storeNormSum ((storeApplyC t []
      (ops.getD (selectKraus (branchProbs t ops amps) u) Mat2.zeroM)
      amps).map fun z => Cx.divR z
        (sq ((branchProbs t ops amps).getD
          (selectKraus (branchProbs t ops amps) u) 0))) = 1
  rw [storeNormSum_divR, hsq _ (le_of_lt hpj), ← hpj2]
  exact div_self (ne_of_gt hpj)

theorem xMat_unitary : (xMat : Mat2 R).unitary := by
  show Mat2.mulM (Mat2.adjoint xMat) xMat = Mat2.idM
  simp [xMat, Mat2.adjoint, Mat2.mulM, Mat2.idM, Cx.conj, Cx.mul_def,
    Cx.add_def, Cx.zero_def, Cx.one_def]

theorem applyStoreOp_length (sq : R → R) (amps : List (Cx R))
    (op : StoreOp R) : (applyStoreOp sq amps op).length = amps.length := by
  cases op with
  | sgate t cs m => exact storeApplyC_length t cs m amps
  | scollapse t u => exact collapse_length sq t amps u
  | skraus t ops u =>
    show ((storeApplyC _ _ _ _).map _).length = _
    rw [List.length_map, storeApplyC_length]

theorem applyStoreOp_norm (k : ℕ) (sq : R → R)
    (hsq : ∀ p, 0 ≤ p → sq p * sq p = p) (amps : List (Cx R))
    (op : StoreOp R) (hlen : amps.length = 2 ^ k) (hok : opOK k op)
    (hnorm : storeNormSum amps = 1) :
    storeNormSum (applyStoreOp sq amps op) = 1 := by
  cases op with
  | sgate t cs m =>
    obtain ⟨ht, htc, hm⟩ := hok
    show storeNormSum (storeApplyC t cs m amps) = 1
    rw [storeApplyC_norm k t cs m amps hlen ht htc hm, hnorm]
  | scollapse t u =>
    obtain ⟨ht, hu0, hu1⟩ := hok
    exact collapse_norm k t sq hsq amps u hlen hnorm hu0 hu1
  | skraus t ops u =>
    obtain ⟨ht, hu0, hu1, hne, hc⟩ := hok
    exact kraus_norm k t sq hsq ops hne hc amps u hlen ht hnorm hu0 hu1

/-- Claim C7: every completed store-level engine operation (unitary or
controlled gate, sampled measurement collapse, Kraus-channel trajectory
collapse) preserves the unit squared-amplitude norm of the store, hence
along every sequence of such operations the norm stays exactly 1 in exact
arithmetic (within any tolerance in floating point); merging two unit-norm
stores by Kronecker product also yields a unit-norm store, since the norm of
a tensor product is the product of the norms. -/
theorem norm_preservation_spec (sq : R → R)
    (hsq : ∀ p : R, 0 ≤ p → sq p * sq p = p) (k : ℕ)
    (ops : List (StoreOp R)) (amps : List (Cx R))
    (hlen : amps.length = 2 ^ k) (hops : ∀ op ∈ ops, opOK k op)
    (hnorm : storeNormSum amps = 1) :
    storeNormSum (ops.foldl (applyStoreOp sq) amps) = 1 ∧
    (ops.foldl (applyStoreOp sq) amps).length = 2 ^ k ∧
    ∀ (a b : List (Cx R)), storeNormSum (kronAmps a b) =
      storeNormSum a * storeNormSum b := by
  refine ⟨?_, ?_, fun a b => kronAmps_norm a b⟩
  · induction ops generalizing amps with
    | nil => exact hnorm
    | cons op rest ih =>
      show storeNormSum (rest.foldl (applyStoreOp sq) (applyStoreOp sq amps op)) = 1
      apply ih (applyStoreOp sq amps op)
      · rw [applyStoreOp_length, hlen]
      · exact fun op2 h2 => hops op2 (List.mem_cons_of_mem op h2)
      · exact applyStoreOp_norm k sq hsq amps op hlen
          (hops op (List.mem_cons_self op rest)) hnorm
  · induction ops generalizing amps with
    | nil => exact hlen
    | cons op rest ih =>
      show (rest.foldl (applyStoreOp sq) (applyStoreOp sq amps op)).length = 2 ^ k
      apply ih (applyStoreOp sq amps op)
      · rw [applyStoreOp_length, hlen]
      · exact fun op2 h2 => hops op2 (List.mem_cons_of_mem op h2)
      · exact applyStoreOp_norm k sq hsq amps op hlen
          (hops op (List.mem_cons_self op rest)) hnorm

/-- Witness for claim C7: a Pauli X gate followed by a measurement collapse
on a one-qubit store in state one keeps the norm at 1, over the reals with
the genuine square root. -/
theorem norm_preservation_spec_witness :
    storeNormSum (([StoreOp.sgate 0 [] xMat, StoreOp.scollapse 0 (1/2)] :
      List (StoreOp ℝ)).foldl (applyStoreOp Real.sqrt) [⟨1, 0⟩, ⟨0, 0⟩]) = 1 :=
  (norm_preservation_spec Real.sqrt
    (fun p hp => Real.mul_self_sqrt hp) 1
    [StoreOp.sgate 0 [] xMat, StoreOp.scollapse 0 (1/2)] [⟨1, 0⟩, ⟨0, 0⟩]
    (by norm_num)
    (by
      intro op hop
      rcases List.mem_cons.mp hop with rfl | hop2
      · exact ⟨by norm_num, by simp, xMat_unitary⟩
      · rcases List.mem_cons.mp hop2 with rfl | hop3
        · exact ⟨by norm_num, by norm_num, by norm_num⟩
        · cases hop3)
    (by norm_num [storeNormSum, Cx.normSq])).1

end NormProofs

end QPandaModel
